import Mathlib

/-!
Verification of the boundary-synthesis pipeline of
`SAA_T5.tab/Tools.panel/RevisionCloudFromElements.pushbutton/script.py`.

The geometric core of the script is embedded shallowly over exact rationals:
a Revit `XYZ` flattened to the XY plane becomes a pair of rationals `Pt`,
a bound line (`Line.CreateBound`) becomes a pair of endpoints `Seg`, and a
`CurveLoop` becomes a `List Seg`.  Floating-point doubles are modelled by `ℚ`
(the algorithms use only field operations and comparisons); distance
comparisons `p.DistanceTo(q) > t` are modelled by the equivalent squared
comparison `sqDist p q > t^2` (for `t ≥ 0`), which avoids square roots.

External Revit primitives that the script only invokes through `try/except`
(boolean solid union, curve offsetting, bounding-box queries) are abstracted
as function parameters returning `Option`, mirroring the script's
"`None` on exception" handling.
-/

/-- A 2D point: a Revit `XYZ` with the `Z` coordinate flattened to `0`,
as produced throughout the script by `XYZ(p.X, p.Y, 0)`. -/
structure Pt where
  x : ℚ
  y : ℚ
deriving DecidableEq, Repr

/-- A straight segment (`Line.CreateBound(p1, p2)`): start and end point. -/
abbrev Seg := Pt × Pt

/-- Squared distance between two points.  `p.DistanceTo(q) > t` in the script
is modelled as `sqDist p q > t^2` (equivalent for `t ≥ 0`). -/
def sqDist (a b : Pt) : ℚ :=
  (b.x - a.x) ^ 2 + (b.y - a.y) ^ 2

/-- The `cross` helper nested in `convex_hull` (script lines 46-47):
`(a.X-o.X)*(b.Y-o.Y) - (a.Y-o.Y)*(b.X-o.X)`. -/
def cross (o a b : Pt) : ℚ :=
  (a.x - o.x) * (b.y - o.y) - (a.y - o.y) * (b.x - o.x)

/-- The sort key `lambda p: (p.X, p.Y)` of `convex_hull` (line 45):
lexicographic order on (x, y). -/
def lexLe (a b : Pt) : Prop :=
  a.x < b.x ∨ (a.x = b.x ∧ a.y ≤ b.y)

/-- Strict lexicographic order on points. -/
def lexLt (a b : Pt) : Prop :=
  a.x < b.x ∨ (a.x = b.x ∧ a.y < b.y)

instance : DecidableRel lexLe := fun a b => by unfold lexLe; infer_instance

instance : DecidableRel lexLt := fun a b => by unfold lexLt; infer_instance

instance : IsTotal Pt lexLe :=
  ⟨fun a b => by unfold lexLe; rcases lt_trichotomy a.x b.x with h | h | h
                 · exact Or.inl (Or.inl h)
                 · rcases le_total a.y b.y with h' | h'
                   · exact Or.inl (Or.inr ⟨h, h'⟩)
                   · exact Or.inr (Or.inr ⟨h.symm, h'⟩)
                 · exact Or.inr (Or.inl h)⟩

instance : IsTrans Pt lexLe :=
  ⟨fun a b c hab hbc => by
    unfold lexLe at *
    rcases hab with h | ⟨h, h'⟩ <;> rcases hbc with g | ⟨g, g'⟩
    · exact Or.inl (h.trans g)
    · exact Or.inl (g ▸ h)
    · exact Or.inl (h ▸ g)
    · exact Or.inr ⟨h.trans g, h'.trans g'⟩⟩

instance : IsAntisymm Pt lexLe :=
  ⟨fun a b hab hba => by
    unfold lexLe at *
    rcases hab with h | ⟨h, h'⟩ <;> rcases hba with g | ⟨g, g'⟩
    · exact absurd (h.trans g) (lt_irrefl _)
    · exact absurd h (g ▸ lt_irrefl _)
    · exact absurd g (h ▸ lt_irrefl _)
    · exact Pt.mk.injEq .. ▸ ⟨h, le_antisymm h' g'⟩⟩

/-- `sorted(points, key=lambda p: (p.X, p.Y))` (line 45).  Python's `sorted`
is a stable sort; on duplicate-free point lists every correct sort agrees,
and we use insertion sort as the canonical stable sort. -/
def sortPts (pts : List Pt) : List Pt := pts.insertionSort lexLe

/-- One pop phase of the monotone-chain loop (lines 50-51 / 54-55):
`while len(ch) >= 2 and cross(ch[-2], ch[-1], p) <= 0: ch.pop()`.
The chain is represented reversed (head = top of the Python list). -/
def popWhile (p : Pt) : List Pt → List Pt
  | b :: a :: rest => if cross a b p ≤ 0 then popWhile p (a :: rest) else b :: a :: rest
  | l => l

/-- Processing one point of the monotone-chain loop: pop then append. -/
def chainStep (ch : List Pt) (p : Pt) : List Pt := p :: popWhile p ch

/-- The full chain-building pass over a point list (reversed representation). -/
def buildRev (pts : List Pt) : List Pt := pts.foldl chainStep []

/-- The `lower` chain of `convex_hull` (lines 49-52), in forward order. -/
def lowerChain (pts : List Pt) : List Pt := (buildRev (sortPts pts)).reverse

/-- The `upper` chain of `convex_hull` (lines 53-56): the same pass over
`reversed(pts)`, in forward order. -/
def upperChain (pts : List Pt) : List Pt := (buildRev (sortPts pts).reverse).reverse

/-- `convex_hull` (script lines 41-57): Andrew's monotone chain.  Inputs of
fewer than 3 points are returned unchanged (`points[:]`); otherwise the
result is `lower[:-1] + upper[:-1]`. -/
def convex_hull (points : List Pt) : List Pt :=
  if points.length < 3 then points
  else (lowerChain points).dropLast ++ (upperChain points).dropLast

/-- Round-half-to-even on rationals (the rounding mode of Python's `round`).
`⌊x⌋` when the fractional part is below 1/2, `⌊x⌋+1` above, ties to even. -/
def rne (q : ℚ) : ℤ :=
  let f := ⌊q⌋
  let r := q - f
  if r < 1 / 2 then f
  else if 1 / 2 < r then f + 1
  else if Even f then f else f + 1

/-- `round(v, 6)` (the `prec=6` key rounding of `distinct_xy`, line 37),
modelled over exact rationals. -/
def pyround6 (q : ℚ) : ℚ := (rne (q * 1000000) : ℚ) / 1000000

/-- Insert or overwrite a key in an association list, keeping the position of
an existing key: the semantics of `seen[k] = v` on a Python dict, which keeps
first-insertion key order but stores the last value. -/
def upsert (k : ℚ × ℚ) (v : Pt) : List ((ℚ × ℚ) × Pt) → List ((ℚ × ℚ) × Pt)
  | [] => [(k, v)]
  | (k', v') :: rest => if k = k' then (k, v) :: rest else (k', v') :: upsert k v rest

/-- `distinct_xy(points, prec=6)` (script lines 33-39): deduplicate by the
key `(round(X, 6), round(Y, 6))`, in first-occurrence key order, keeping the
last (unrounded, z-flattened) point for each key. -/
def distinct_xy (points : List Pt) : List Pt :=
  (points.foldl (fun acc p => upsert (pyround6 p.x, pyround6 p.y) p acc) []).map (·.2)

/-- `curveloop_from_points(points)` (script lines 59-68) with the application
`ShortCurveTolerance` as parameter `tol`: for each cyclically consecutive pair
of points, a bound line is appended when the two points are farther apart than
`tol`; lists of fewer than 2 points produce the empty loop.  Edges at or below
the tolerance are silently skipped, not failed. -/
def curveloop_from_points (tol : ℚ) (points : List Pt) : List Seg :=
  if points.length < 2 then []
  else
    (List.range points.length).filterMap fun i =>
      let p1 := points.getD i ⟨0, 0⟩
      let p2 := points.getD ((i + 1) % points.length) ⟨0, 0⟩
      if tol ^ 2 < sqDist p1 p2 then some (p1, p2) else none

/-- An axis-aligned rectangle, as returned by `get_scopebox_rect` or carried
by a `BoundingBoxXYZ` flattened to XY. -/
structure Rect where
  xmin : ℚ
  ymin : ℚ
  xmax : ℚ
  ymax : ℚ
deriving DecidableEq, Repr

/-- The four corners `[(Min.X,Min.Y),(Max.X,Min.Y),(Max.X,Max.Y),(Min.X,Max.Y)]`
of a bounding box, as built in `wall_convex_outline_points` (lines 289-294). -/
def rectCorners (r : Rect) : List Pt :=
  [⟨r.xmin, r.ymin⟩, ⟨r.xmax, r.ymin⟩, ⟨r.xmax, r.ymax⟩, ⟨r.xmin, r.ymax⟩]

/-- `wall_convex_outline_points(el, view)` (script lines 259-296), shallowly:
its inputs are the flattened solid-edge endpoints `pts` collected from the
element's geometry and the element's bounding box `bb` (`None` when
`get_BoundingBox` fails).  When fewer than 3 raw points were collected the
bounding-box corners are substituted (when available); the result is
`convex_hull(distinct_xy(pts, 6))`. -/
def wall_convex_outline_points (pts : List Pt) (bb : Option Rect) : List Pt :=
  let pts2 := if pts.length < 3 then (match bb with
                                      | some r => rectCorners r
                                      | none => pts)
              else pts
  convex_hull (distinct_xy pts2)

/-- One half-plane pass of `clip_edge` (script lines 152-167), written as a
walk over the vertex cycle with the running previous vertex: for each edge
(`prev`, `curr`), emit `curr` when inside (preceded by the intersection point
when `prev` was outside), or just the intersection point when leaving. -/
def clipStep (inside : Pt → Bool) (isect : Pt → Pt → Pt) : Pt → List Pt → List Pt
  | _, [] => []
  | prev, curr :: rest =>
    (if inside curr then
       (if inside prev then [curr] else [isect prev curr, curr])
     else
       (if inside prev then [isect prev curr] else [])) ++ clipStep inside isect curr rest

/-- `clip_edge(pts, inside, intersect)` (lines 152-167): the walk starts with
`prev = pts[-1]`. -/
def clip_edge (inside : Pt → Bool) (isect : Pt → Pt → Pt) (pts : List Pt) : List Pt :=
  match pts with
  | [] => []
  | p :: rest => clipStep inside isect ((p :: rest).getLastD p) (p :: rest)

/-- `intersect_x(p1, p2, x_clip)` (lines 174-180): intersection of segment
(`p1`,`p2`) with the vertical line `x = x_clip`; near-vertical segments
(|dx| < 1e-9) degenerate to `(x_clip, p1.Y)`. -/
def intersect_x (p1 p2 : Pt) (xclip : ℚ) : Pt :=
  let dx := p2.x - p1.x
  if |dx| < 1 / 1000000000 then ⟨xclip, p1.y⟩
  else
    let t := (xclip - p1.x) / dx
    ⟨xclip, p1.y + t * (p2.y - p1.y)⟩

/-- `intersect_y(p1, p2, y_clip)` (lines 182-188). -/
def intersect_y (p1 p2 : Pt) (yclip : ℚ) : Pt :=
  let dy := p2.y - p1.y
  if |dy| < 1 / 1000000000 then ⟨p1.x, yclip⟩
  else
    let t := (yclip - p1.y) / dy
    ⟨p1.x + t * (p2.x - p1.x), yclip⟩

/-- `clip_polygon_to_rect(points, xmin, ymin, xmax, ymax)` (lines 143-194):
Sutherland-Hodgman clipping as four sequential half-plane passes
(left, right, bottom, top). -/
def clip_polygon_to_rect (points : List Pt) (xmin ymin xmax ymax : ℚ) : List Pt :=
  let ptsL := clip_edge (fun p => xmin ≤ p.x) (fun a b => intersect_x a b xmin) points
  let ptsR := clip_edge (fun p => p.x ≤ xmax) (fun a b => intersect_x a b xmax) ptsL
  let ptsB := clip_edge (fun p => ymin ≤ p.y) (fun a b => intersect_y a b ymin) ptsR
  clip_edge (fun p => p.y ≤ ymax) (fun a b => intersect_y a b ymax) ptsB

/-- The vertex list read off a curve loop by `reverse_if_needed`
(lines 576-579): the start point of every curve. -/
def loopPoints (loop : List Seg) : List Pt := loop.map (·.1)

/-- The non-cyclic part of the shoelace sum: `x_i*y_{i+1} - x_{i+1}*y_i`
over consecutive pairs. -/
def segSum : List Pt → ℚ
  | a :: b :: rest => (a.x * b.y - b.x * a.y) + segSum (b :: rest)
  | _ => 0

/-- The signed area computed at lines 582-586: half the cyclic shoelace sum
over the loop's vertex list (the wrap-around term closes the cycle). -/
def shoelace (pts : List Pt) : ℚ :=
  match pts with
  | [] => 0
  | p :: rest =>
    let l := (p :: rest).getLastD p
    (segSum (p :: rest) + (l.x * p.y - p.x * l.y)) / 2

/-- `reverse_if_needed(loop)` (script lines 575-596): loops with fewer than 3
start points, and loops whose signed area is `<= 0`, are returned unchanged;
otherwise each curve is reversed and the curve order inverted
(`curves.insert(0, it.Current.CreateReversed())`). -/
def reverse_if_needed (loop : List Seg) : List Seg :=
  let pts := loopPoints loop
  if pts.length < 3 then loop
  else if shoelace pts ≤ 0 then loop
  else (loop.map (fun s => (s.2, s.1))).reverse

/-- `offset_loop(loop, dist)` (script lines 403-407):
`CurveLoop.CreateViaOffset` is an external Revit operation that can throw, so
it is abstracted as `off : loop → dist → Option loop`; on failure (`None`) the
unmodified input loop is returned. -/
def offset_loop (off : List Seg → ℚ → Option (List Seg)) (loop : List Seg) (dist : ℚ) :
    List Seg :=
  match off loop dist with
  | some res => res
  | none => loop

/-- The connection search of `map_curve_loop_to_sheet` (script lines 543-551):
scan the remaining segments in order for the first whose start (used as-is) or
end (reversed in place, `CreateReversed`) lies within `tol * 10` of the chain
tail; return the chosen segment and the remaining list. -/
def findNext (tol : ℚ) (lastEnd : Pt) : List Seg → Option (Seg × List Seg)
  | [] => none
  | c :: rest =>
    if sqDist lastEnd c.1 < (tol * 10) ^ 2 then some (c, rest)
    else if sqDist lastEnd c.2 < (tol * 10) ^ 2 then some ((c.2, c.1), rest)
    else
      match findNext tol lastEnd rest with
      | some (c', rem) => some (c', c :: rem)
      | none => none

/-- The greedy chaining loop of `map_curve_loop_to_sheet` (lines 539-556),
with explicit fuel: each iteration removes one segment from `left`, so
`left.length` fuel runs the loop to its Python fixed point (the loop `break`s
when no connecting segment is found). -/
def buildSorted (tol : ℚ) : Nat → List Seg → List Seg → List Seg
  | 0, acc, _ => acc
  | _ + 1, acc, [] => acc
  | fuel + 1, acc, left =>
    match findNext tol ((acc.getLastD (⟨0, 0⟩, ⟨0, 0⟩)).2) left with
    | some (c, rem) => buildSorted tol fuel (acc ++ [c]) rem
    | none => acc

/-- `sorted_curves` as assembled at lines 539-556: the greedy chain grown
from the first segment. -/
def greedy_chain (tol : ℚ) (segs : List Seg) : List Seg :=
  match segs with
  | [] => []
  | s :: rest => buildSorted tol rest.length [s] rest

/-- The chain-and-close phase of `map_curve_loop_to_sheet` (lines 535-565):
after greedy chaining, when the chain has more than one curve and the gap
between its first start and last end exceeds `tol * 10`, one closing line is
appended — with no upper bound on the gap.  (`Line.CreateBound` succeeds here
because the gap exceeds the short-curve tolerance; the final `Append` loop
into the Revit `CurveLoop` is modelled as the list itself.) -/
def chain_segs (tol : ℚ) (segs : List Seg) : List Seg :=
  match segs with
  | [] => []
  | s :: rest =>
    let sorted := buildSorted tol rest.length [s] rest
    if 1 < sorted.length then
      let firstStart := (sorted.getD 0 s).1
      let lastEnd := (sorted.getLastD s).2
      if (tol * 10) ^ 2 < sqDist firstStart lastEnd then sorted ++ [(lastEnd, firstStart)]
      else sorted
    else sorted

/-- The per-curve walk of the main loop (script lines 769-795) that rebuilds
the cloud curve list from a sheet loop: curves shorter than `tol` are skipped,
and a bridging line is inserted for a gap `g` between consecutive kept curves
exactly when `tol < g < tol * 100` (`max_gap`, line 755). -/
def bridgeWalk (tol : ℚ) (prevEnd : Pt) : List Seg → List Seg
  | [] => []
  | c :: rest =>
    if sqDist c.1 c.2 < tol ^ 2 then bridgeWalk tol prevEnd rest
    else
      let gap := sqDist prevEnd c.1
      (if tol ^ 2 < gap ∧ gap < (tol * 100) ^ 2 then [(prevEnd, c.1), c] else [c]) ++
        bridgeWalk tol c.2 rest

/-- The closing part of the main loop (lines 789-795): after the walk, when
both a first kept start and a last kept end exist, a closing line is added
exactly when the closing gap `g` satisfies `tol < g < tol * 100`. -/
def bridge_pass (tol : ℚ) (curves : List Seg) : List Seg :=
  match curves.find? (fun c => ¬ sqDist c.1 c.2 < tol ^ 2) with
  | none => []
  | some c0 =>
    let walked := bridgeWalk tol c0.1 curves
    match walked.getLast? with
    | none => []
    | some clast =>
      let gap := sqDist clast.2 c0.1
      if tol ^ 2 < gap ∧ gap < (tol * 100) ^ 2 then walked ++ [(clast.2, c0.1)] else walked

/-- A solid in the merge phase, modelled by the 2D footprint polygons of its
wafers: `make_wafer` extrudes one flattened loop, and a boolean union of
wafers yields a solid whose footprint is the union of the operand footprints
(possibly disconnected). -/
structure Solid where
  polys : List (List Pt)
deriving DecidableEq, Repr

/-- `_bb_overlap2d(bbA, bbB, tol)` (script lines 426-430) over `Rect`. -/
def bb_overlap2d (a b : Rect) (tol : ℚ) : Prop :=
  ¬ (a.xmax < b.xmin - tol ∨ b.xmax < a.xmin - tol ∨
     a.ymax < b.ymin - tol ∨ b.ymax < a.ymin - tol)

instance (a b : Rect) (tol : ℚ) : Decidable (bb_overlap2d a b tol) := by
  unfold bb_overlap2d; infer_instance

/-- `_try_union(a, b)` (lines 438-445): try the union both ways; the Revit
boolean operation itself is the abstract parameter `u`. -/
def tryUnion (u : Solid → Solid → Option Solid) (a b : Solid) : Option Solid :=
  match u a b with
  | some r => some r
  | none => u b a

/-- The first, greedy pass of `merge_solids_groups` (script lines 451-467):
fold each solid into the first existing group whose bounding box overlaps its
own (with margin `tol * 10`) and whose union succeeds; otherwise append it as
a new group.  Solids without a bounding box are appended directly. -/
def placeSolid (u : Solid → Solid → Option Solid) (bb : Solid → Option Rect) (tol : ℚ)
    (s : Solid) (sb : Rect) : List Solid → Option (List Solid)
  | [] => none
  | g :: gs =>
    match bb g with
    | some gb =>
      if bb_overlap2d sb gb (tol * 10) then
        match tryUnion u g s with
        | some un => some (un :: gs)
        | none =>
          match placeSolid u bb tol s sb gs with
          | some gs' => some (g :: gs')
          | none => none
      else
        match placeSolid u bb tol s sb gs with
        | some gs' => some (g :: gs')
        | none => none
    | none =>
      match placeSolid u bb tol s sb gs with
      | some gs' => some (g :: gs')
      | none => none

/-- The greedy pass folded over all solids (lines 452-467). -/
def greedyGroups (u : Solid → Solid → Option Solid) (bb : Solid → Option Rect) (tol : ℚ)
    (solids : List Solid) : List Solid :=
  solids.foldl
    (fun groups s =>
      match bb s with
      | none => groups ++ [s]
      | some sb =>
        match placeSolid u bb tol s sb groups with
        | some groups' => groups'
        | none => groups ++ [s])
    []

/-- The inner `j`-scan of the second pass (script lines 474-485): walk the
candidate list, folding into `base` every candidate whose bounding box
overlaps the current base's and whose union succeeds; return the grown base,
the surviving candidates in order, and whether any merge happened. -/
def scanCands (u : Solid → Solid → Option Solid) (bb : Solid → Option Rect) (tol : ℚ) :
    Solid → List Solid → Solid × List Solid × Bool
  | base, [] => (base, [], false)
  | base, c :: rest =>
    let merged :=
      match bb base, bb c with
      | some b1, some b2 =>
        if bb_overlap2d b1 b2 (tol * 10) then tryUnion u base c else none
      | _, _ => none
    match merged with
    | some un =>
      let (b', rem, _) := scanCands u bb tol un rest
      (b', rem, true)
    | none =>
      let (b', rem, ch) := scanCands u bb tol base rest
      (b', c :: rem, ch)

/-- One sweep of the second pass (`while groups:` at lines 471-486): pop the
last group as `base`, scan the rest, append the grown base to `new_groups`,
and repeat on the survivors.  Fuel `groups.length` suffices because each
sweep iteration pops one group. -/
def sweepGroups (u : Solid → Solid → Option Solid) (bb : Solid → Option Rect) (tol : ℚ) :
    Nat → List Solid → List Solid → Bool → List Solid × Bool
  | 0, _, acc, ch => (acc, ch)
  | _ + 1, [], acc, ch => (acc, ch)
  | fuel + 1, gs, acc, ch =>
    let base := gs.getLastD ⟨[]⟩
    let rest := gs.dropLast
    let (base', survivors, merged) := scanCands u bb tol base rest
    sweepGroups u bb tol fuel survivors (acc ++ [base']) (ch || merged)

/-- The fixed-point loop of `merge_solids_groups` (lines 468-487):
`while changed and len(groups) > 1`, re-running the sweep.  A sweep that
reports `changed` performed at least one union, strictly shrinking the group
list, so `groups.length` fuel reaches the Python fixed point. -/
def fixGroups (u : Solid → Solid → Option Solid) (bb : Solid → Option Rect) (tol : ℚ) :
    Nat → List Solid → List Solid
  | 0, groups => groups
  | fuel + 1, groups =>
    if 1 < groups.length then
      let (g', ch) := sweepGroups u bb tol groups.length groups [] false
      if ch then fixGroups u bb tol fuel g' else g'
    else groups

/-- `merge_solids_groups(solids)` (script lines 447-488), parameterized by the
external union operation `u` and bounding-box query `bb`, with the
application short-curve tolerance `tol`. -/
def merge_solids_groups (u : Solid → Solid → Option Solid) (bb : Solid → Option Rect)
    (tol : ℚ) (solids : List Solid) : List Solid :=
  match solids with
  | [] => []
  | _ =>
    let groups := greedyGroups u bb tol solids
    fixGroups u bb tol groups.length groups

/-- One shoelace term `a.X*b.Y - b.X*a.Y` (lines 583-584), named for lemmas. -/
def sl (a b : Pt) : ℚ := a.x * b.y - b.x * a.y

/-- A curve list forms a closed contiguous chain: every curve's end point is
the next curve's start point, cyclically.  This is the invariant Revit's
`CurveLoop` maintains (`Append` rejects discontiguous curves), so every loop
reaching `reverse_if_needed` satisfies it. -/
def IsClosedChain (l : List Seg) : Prop :=
  ∀ i, (h : i < l.length) →
    (l.get ⟨i, h⟩).2 = (l.get ⟨(i + 1) % l.length, Nat.mod_lt _ (Nat.zero_lt_of_lt h)⟩).1

instance (l : List Seg) : Decidable (IsClosedChain l) := by
  unfold IsClosedChain; exact Nat.decidableBallLT _ _
/-- The flattened footprint points of a solid (every wafer polygon vertex). -/
def ptsOfSolid (s : Solid) : List Pt := s.polys.flatten

/-- `Solid.GetBoundingBox()` on a wafer solid, in the 2D model: the axis-
aligned bounds of all footprint vertices, `none` for an empty solid
(matching `_solid_bbox`'s `None`-on-exception path, lines 432-436). -/
def solidBBox (s : Solid) : Option Rect :=
  match ptsOfSolid s with
  | [] => none
  | p :: rest =>
    some ⟨(rest.map (·.x)).foldl min p.x, (rest.map (·.y)).foldl min p.y,
          (rest.map (·.x)).foldl max p.x, (rest.map (·.y)).foldl max p.y⟩

/-- Modelled from the spec: the boolean solid union used by `_try_union` is
Revit's `BooleanOperationsUtils.ExecuteBooleanOperation(..., Union)` (external
to the repository).  Per the spec's wafer description (section 4.3), union of
two wafer solids is the solid carrying both footprints; it succeeds also for
disjoint operands, producing a solid with disconnected lumps. -/
def unionPolys (a b : Solid) : Option Solid := some ⟨a.polys ++ b.polys⟩

/-- Embedding of a model point into the real plane, for stating geometric
disjointness of footprints. -/
def toR (p : Pt) : ℝ × ℝ := ((p.x : ℝ), (p.y : ℝ))

/-- All consecutive vertex triples of a chain turn strictly left
(`cross > 0`): the strict-convexity property of monotone-chain output. -/
def StrictTurns : List Pt → Prop
  | a :: b :: c :: rest => 0 < cross a b c ∧ StrictTurns (b :: c :: rest)
  | _ => True

instance instDecStrictTurns : ∀ l : List Pt, Decidable (StrictTurns l)
  | [] => .isTrue trivial
  | [_] => .isTrue trivial
  | [_, _] => .isTrue trivial
  | a :: b :: c :: rest =>
    have := instDecStrictTurns (b :: c :: rest)
    decidable_of_iff (0 < cross a b c ∧ StrictTurns (b :: c :: rest)) Iff.rfl

/-- Every edge (consecutive pair) of a chain has the query point weakly to
its left: the chain supports the point. -/
def EdgesSupport (q : Pt) : List Pt → Prop
  | a :: b :: rest => 0 ≤ cross a b q ∧ EdgesSupport q (b :: rest)
  | _ => True

/-- Strict lexicographic sortedness of a point list. -/
def LexSortedStrict : List Pt → Prop
  | a :: b :: rest => lexLt a b ∧ LexSortedStrict (b :: rest)
  | _ => True

/-- Point negation; `cross` is invariant under it, which transfers lower-chain
facts to the upper chain (built over the reversed sort order). -/
def negPt (p : Pt) : Pt := ⟨-p.x, -p.y⟩


/-- The pairwise no-overlap relation used for the disjoint-input theorems:
whenever both bounding boxes exist, they do not overlap within the merge
margin. -/
def NoBBOverlap (bb : Solid → Option Rect) (tol : ℚ) (a b : Solid) : Prop :=
  ∀ ra rb, bb a = some ra → bb b = some rb → ¬ bb_overlap2d ra rb (tol * 10)


/-- Default point used with `List.getD` / `List.headD` in chain lemmas. -/
def pt0 : Pt := ⟨0, 0⟩

/-- All points of the list lie on one line: every triple has zero cross
product. -/
def allCollinear (pts : List Pt) : Prop :=
  ∀ a ∈ pts, ∀ b ∈ pts, ∀ c ∈ pts, cross a b c = 0

/-- `StrictTurns` read off a reversed chain (head = top of the Python list):
every consecutive triple of the underlying forward chain turns strictly
left. -/
def RevTurns : List Pt → Prop
  | c :: b :: a :: rest => 0 < cross a b c ∧ RevTurns (b :: a :: rest)
  | _ => True

/-- `EdgesSupport` read off a reversed chain: every forward edge of the chain
keeps `q` weakly to its left. -/
def RevSupports (q : Pt) : List Pt → Prop
  | b :: a :: rest => 0 ≤ cross a b q ∧ RevSupports q (a :: rest)
  | _ => True


/-- The invariant of the monotone-chain build, over the processed input `T`
and the reversed chain `ch`: nonempty, bottom = first (lex-least) input,
top = last (lex-greatest) input, a strictly-descending sublist of the input,
strictly convex, and every processed point weakly left of every chain edge. -/
def RevChainInv (T ch : List Pt) : Prop :=
  ch ≠ [] ∧
  ch.getLast? = T.head? ∧
  ch.head? = T.getLast? ∧
  ch.reverse.Sublist T ∧
  List.Pairwise (fun a b => lexLt b a) ch ∧
  RevTurns ch ∧
  ∀ q ∈ T, RevSupports q ch


theorem segSum_concat (xs : List Pt) (y : Pt) :
    segSum (xs ++ [y]) = segSum xs + sl ((xs.getLast?).getD y) y := by
  induction xs with
  | nil => simp [segSum, sl]
  | cons x xs ih =>
    cases xs with
    | nil => simp [segSum, sl]
    | cons x' xs' =>
      simp only [List.cons_append, segSum, List.append_eq] at *
      rw [ih, List.getLast?_cons_cons]
      ring

theorem segSum_reverse (l : List Pt) : segSum l.reverse = - segSum l := by
  induction l with
  | nil => simp [segSum]
  | cons x xs ih =>
    rw [List.reverse_cons, segSum_concat, ih, List.getLast?_reverse]
    cases xs with
    | nil => simp [segSum, sl]
    | cons y ys =>
      simp only [List.head?_cons, Option.getD_some, segSum, sl]
      ring

theorem shoelace_small (l : List Pt) (h : l.length < 3) : shoelace l = 0 := by
  match l, h with
  | [], _ => rfl
  | [a], _ => simp [shoelace, segSum]
  | [a, b], _ => simp [shoelace, segSum]

theorem shoelace_reverse (l : List Pt) : shoelace l.reverse = - shoelace l := by
  cases hl : l with
  | nil => simp [shoelace]
  | cons p rest =>
    have hne : (p :: rest).reverse ≠ [] := by simp
    rcases hq : (p :: rest).reverse with _ | ⟨q, t⟩
    · exact absurd hq hne
    · have hss : segSum (q :: t) = - segSum (p :: rest) := by
        rw [← hq, segSum_reverse]
      have hlast : (q :: t).getLast? = some p := by
        rw [← hq, List.getLast?_reverse]; rfl
      have hq' : (p :: rest).getLast? = some q := by
        rw [← List.head?_reverse, hq]; rfl
      simp only [shoelace, List.getLastD_eq_getLast?, hlast, hq', Option.getD_some, hss, sl]
      ring

theorem shoelace_rotate (p : Pt) (rest : List Pt) :
    shoelace (rest ++ [p]) = shoelace (p :: rest) := by
  cases rest with
  | nil => rfl
  | cons q rs =>
    have h1 : (q :: (rs ++ [p])).getLast? = some p := by
      rw [← List.cons_append, List.getLast?_concat]
    simp only [List.cons_append, shoelace, List.getLastD_eq_getLast?, h1, Option.getD_some,
      List.getLast?_cons_cons]
    rw [← List.cons_append, segSum_concat]
    rw [show segSum (p :: q :: rs) = (p.x * q.y - q.x * p.y) + segSum (q :: rs) from rfl]
    cases h2 : (q :: rs).getLast? with
    | none => simp at h2
    | some z => simp [sl]; ring
theorem closed_chain_snds (l : List Seg) (hc : IsClosedChain l) (p : Pt) (rest : List Pt)
    (hpts : loopPoints l = p :: rest) : l.map (·.2) = rest ++ [p] := by
  have hlen : l.length = rest.length + 1 := by
    have := congrArg List.length hpts
    simpa [loopPoints] using this
  have hcq : ∀ i, i < l.length →
      (l[i]?).map (·.2) = (l[(i + 1) % l.length]?).map (·.1) := by
    intro i hi
    have h2 : (i + 1) % l.length < l.length := Nat.mod_lt _ (by omega)
    rw [List.getElem?_eq_getElem hi, List.getElem?_eq_getElem h2]
    have := hc i hi
    simp only [List.get_eq_getElem] at this
    simp [this]
  have hfq : ∀ j : Nat, (List.map (fun s : Seg => s.1) l)[j]? = (p :: rest)[j]? := by
    intro j
    rw [show (List.map (fun s : Seg => s.1) l) = loopPoints l from rfl, hpts]
  apply List.ext_getElem?
  intro i
  by_cases hi : i < l.length
  · rw [List.getElem?_map, hcq i hi]
    rw [show ((l[(i + 1) % l.length]?).map (·.1) : Option Pt) =
        (List.map (fun s : Seg => s.1) l)[(i + 1) % l.length]? from (List.getElem?_map ..).symm]
    rw [hfq]
    rcases Nat.lt_or_ge i rest.length with hlt | hge
    · have hmod : (i + 1) % l.length = i + 1 := Nat.mod_eq_of_lt (by omega)
      rw [hmod, List.getElem?_cons_succ, List.getElem?_append_left hlt]
    · have hieq : i = rest.length := by omega
      have hmod : (i + 1) % l.length = 0 := by
        subst hieq; rw [hlen]; simp
      rw [hmod, List.getElem?_append_right (by omega)]
      simp [hieq]
  · rw [List.getElem?_eq_none (by simpa using Nat.le_of_not_lt hi),
        List.getElem?_eq_none (by simp; omega)]
theorem loopPoints_reversed (l : List Seg) :
    loopPoints ((l.map fun s => (s.2, s.1)).reverse) = (l.map (·.2)).reverse := by
  simp [loopPoints]

/-- C1: the claim says the normalizer makes the shoelace signed area positive
(counter-clockwise canonical winding) and leaves already-counter-clockwise
loops unchanged.  The code does the opposite: `reverse_if_needed` returns the
loop unchanged when the signed area is `<= 0` and reverses it when the area is
positive.  On a counter-clockwise triangle (area +1/2) the loop is reversed
and the resulting signed area is -1/2 < 0. -/
theorem claim1_counterexample :
    0 < shoelace (loopPoints [(⟨0,0⟩,⟨1,0⟩), (⟨1,0⟩,⟨0,1⟩), (⟨0,1⟩,⟨0,0⟩)]) ∧
    reverse_if_needed [(⟨0,0⟩,⟨1,0⟩), (⟨1,0⟩,⟨0,1⟩), (⟨0,1⟩,⟨0,0⟩)] ≠
      [(⟨0,0⟩,⟨1,0⟩), (⟨1,0⟩,⟨0,1⟩), (⟨0,1⟩,⟨0,0⟩)] ∧
    shoelace (loopPoints (reverse_if_needed
      [(⟨0,0⟩,⟨1,0⟩), (⟨1,0⟩,⟨0,1⟩), (⟨0,1⟩,⟨0,0⟩)])) < 0 := by
  refine ⟨by norm_num [shoelace, loopPoints, segSum], ?_, ?_⟩
  · norm_num [reverse_if_needed, shoelace, loopPoints, segSum, Pt.mk.injEq]
  · norm_num [reverse_if_needed, shoelace, loopPoints, segSum]

/-- C1 (amended): the canonical winding enforced by `reverse_if_needed` is
clockwise, not counter-clockwise: a loop whose signed area is `<= 0` is
returned with its vertex order unchanged, a loop with positive signed area is
reversed, and for every closed contiguous loop the normalized signed area is
`<= 0`. -/
theorem claim1_amended (l : List Seg) (hc : IsClosedChain l) :
    (shoelace (loopPoints l) ≤ 0 → reverse_if_needed l = l) ∧
    (0 < shoelace (loopPoints l) →
      reverse_if_needed l = (l.map fun s => (s.2, s.1)).reverse) ∧
    shoelace (loopPoints (reverse_if_needed l)) ≤ 0 := by
  refine ⟨?_, ?_, ?_⟩
  · intro h
    simp only [reverse_if_needed]
    split_ifs <;> rfl
  · intro h
    simp only [reverse_if_needed]
    split_ifs with h1 h2
    · exact absurd (shoelace_small _ h1) (by intro e; rw [e] at h; exact lt_irrefl _ h)
    · exact absurd h (not_lt.mpr h2)
    · rfl
  · simp only [reverse_if_needed]
    split_ifs with h1 h2
    · rw [shoelace_small _ h1]
    · exact h2
    · rw [loopPoints_reversed]
      push_neg at h1
      rcases hp : loopPoints l with _ | ⟨p, rest⟩
      · rw [hp] at h1; simp at h1
      · rw [closed_chain_snds l hc p rest hp, shoelace_reverse, shoelace_rotate, ← hp]
        push_neg at h2
        linarith

/-- C1 witness: a concrete closed counter-clockwise triangle satisfies the
closed-chain hypothesis and is normalized to non-positive signed area. -/
theorem claim1_witness :
    IsClosedChain [(⟨0,0⟩,⟨1,0⟩), (⟨1,0⟩,⟨0,1⟩), (⟨0,1⟩,⟨0,0⟩)] ∧
    shoelace (loopPoints (reverse_if_needed
      [(⟨0,0⟩,⟨1,0⟩), (⟨1,0⟩,⟨0,1⟩), (⟨0,1⟩,⟨0,0⟩)])) ≤ 0 := by
  have hc : IsClosedChain [((⟨0,0⟩ : Pt),(⟨1,0⟩ : Pt)), (⟨1,0⟩,⟨0,1⟩), (⟨0,1⟩,⟨0,0⟩)] := by
    intro i h
    have h3 : i < 3 := by simpa using h
    interval_cases i <;> rfl
  exact ⟨hc, (claim1_amended _ hc).2.2⟩
/-- C8: when the external offset operation fails (returns no result, the
script's `except` path), `offset_loop` returns the unmodified input loop. -/
theorem claim8_offset_failure_fallback (off : List Seg → ℚ → Option (List Seg))
    (loop : List Seg) (dist : ℚ) (h : off loop dist = none) :
    offset_loop off loop dist = loop := by
  simp [offset_loop, h]

/-- C8 witness: a concrete loop with an always-failing offset operation. -/
theorem claim8_witness :
    offset_loop (fun _ _ => none) [(⟨0,0⟩,⟨1,0⟩)] 1 = [(⟨0,0⟩,⟨1,0⟩)] :=
  claim8_offset_failure_fallback _ _ _ rfl

/-- C4: the claim says a constructed polygon always has at least 3 vertices,
and a point list that cannot yield one produces no polygon at all.  The code
disagrees: a 2-point list produces a constructed, nonempty 2-curve loop
(the degenerate there-and-back 2-gon), which `get_room_loops` would even keep
(`NumberOfCurves() > 1`). -/
theorem claim4_counterexample :
    curveloop_from_points 1 [⟨0,0⟩, ⟨10,0⟩] = [(⟨0,0⟩,⟨10,0⟩), (⟨10,0⟩,⟨0,0⟩)] ∧
    (loopPoints (curveloop_from_points 1 [⟨0,0⟩, ⟨10,0⟩])).length = 2 := by
  constructor <;>
    norm_num [curveloop_from_points, sqDist, List.range_succ, List.filterMap_cons,
      List.getD, loopPoints]

/-- C4 (amended): `curveloop_from_points` guarantees only that every
constructed edge is longer than the short-curve tolerance and that lists of
fewer than 2 points yield the empty loop; edges at or below the tolerance are
skipped rather than failing construction, so loops with fewer than 3 vertices
can be constructed. -/
theorem claim4_amended (tol : ℚ) (points : List Pt) :
    (points.length < 2 → curveloop_from_points tol points = []) ∧
    ∀ s ∈ curveloop_from_points tol points, tol ^ 2 < sqDist s.1 s.2 := by
  constructor
  · intro h
    simp [curveloop_from_points, if_pos h]
  · intro s hs
    simp only [curveloop_from_points] at hs
    split_ifs at hs with h
    · simp at hs
    · obtain ⟨i, _, hite⟩ := List.mem_filterMap.mp hs
      split_ifs at hite with hcond
      cases hite
      exact hcond

/-- C4 witness: the amended theorem applied to a concrete constructed edge. -/
theorem claim4_witness : (1 : ℚ) ^ 2 < sqDist ⟨0,0⟩ ⟨10,0⟩ :=
  (claim4_amended 1 [⟨0,0⟩, ⟨10,0⟩]).2 (⟨0,0⟩, ⟨10,0⟩) (by
    norm_num [curveloop_from_points, sqDist, List.range_succ, List.filterMap_cons, List.getD])

/-- C3: the claim says the bounding-rectangle fallback triggers whenever fewer
than 3 distinct points remain after deduplication.  The code tests the raw
collected list before deduplication: four copies of one point pass the
`len(pts) < 3` test, so no fallback happens and the result is the single
deduplicated point, not the element's bounding rectangle. -/
theorem claim3_counterexample :
    (distinct_xy [⟨0,0⟩, ⟨0,0⟩, ⟨0,0⟩, ⟨0,0⟩]).length < 3 ∧
    wall_convex_outline_points [⟨0,0⟩, ⟨0,0⟩, ⟨0,0⟩, ⟨0,0⟩] (some ⟨0,0,1,1⟩) = [⟨0,0⟩] := by
  constructor <;>
    norm_num [wall_convex_outline_points, distinct_xy, upsert, pyround6, rne,
      convex_hull, rectCorners]

/-- C3 (amended): the fallback to the element's bounding rectangle triggers
when the raw collected vertex list (before deduplication) has fewer than
3 points; the result is then the convex hull of the deduplicated corner
points of the bounding rectangle. -/
theorem claim3_amended (pts : List Pt) (bb : Option Rect) (r : Rect)
    (h3 : pts.length < 3) (hbb : bb = some r) :
    wall_convex_outline_points pts bb = convex_hull (distinct_xy (rectCorners r)) := by
  subst hbb
  simp [wall_convex_outline_points, if_pos h3]

/-- C3 witness: an empty raw point list with a proper bounding box yields
exactly the box's 4 corners in counter-clockwise hull order. -/
theorem claim3_witness :
    ([] : List Pt).length < 3 ∧
    wall_convex_outline_points [] (some ⟨0,0,2,3⟩) = [⟨0,0⟩, ⟨2,0⟩, ⟨2,3⟩, ⟨0,3⟩] := by
  refine ⟨by norm_num, ?_⟩
  rw [claim3_amended [] (some ⟨0,0,2,3⟩) ⟨0,0,2,3⟩ (by norm_num) rfl]
  norm_num [rectCorners, distinct_xy, upsert, pyround6, rne, convex_hull, lowerChain,
    upperChain, buildRev, chainStep, popWhile, cross, sortPts, List.insertionSort,
    List.orderedInsert, lexLe, Pt.mk.injEq, Prod.mk.injEq]
theorem bridgeWalk_mem (tol : ℚ) (pe : Pt) (curves : List Seg) (c : Seg)
    (h : c ∈ bridgeWalk tol pe curves) :
    c ∈ curves ∨ (tol ^ 2 < sqDist c.1 c.2 ∧ sqDist c.1 c.2 < (tol * 100) ^ 2) := by
  induction curves generalizing pe with
  | nil => simp [bridgeWalk] at h
  | cons d rest ih =>
    simp only [bridgeWalk] at h
    split_ifs at h with h1 h2
    · rcases ih _ h with h' | h'
      · exact Or.inl (List.mem_cons_of_mem _ h')
      · exact Or.inr h'
    · rcases List.mem_append.mp h with h' | h'
      · simp only [List.mem_cons, List.not_mem_nil, or_false] at h'
        rcases h' with h' | h'
        · subst h'
          exact Or.inr h2
        · subst h'
          exact Or.inl (List.mem_cons_self _ _)
      · rcases ih _ h' with h'' | h''
        · exact Or.inl (List.mem_cons_of_mem _ h'')
        · exact Or.inr h''
    · rcases List.mem_append.mp h with h' | h'
      · simp only [List.mem_cons, List.not_mem_nil, or_false] at h'
        subst h'
        exact Or.inl (List.mem_cons_self _ _)
      · rcases ih _ h' with h'' | h''
        · exact Or.inl (List.mem_cons_of_mem _ h'')
        · exact Or.inr h''

/-- C2: the claim says that when the closing gap of a stitched chain exceeds
the gap-bridge tolerance (`max_gap = tol * 100`), no closing edge is
synthesized and the loop is left open.  The chaining step of
`map_curve_loop_to_sheet` has no upper bound: with `tol = 1` a chain whose
closing gap is 200 (far above `max_gap = 100`) still receives a synthetic
closing edge. -/
theorem claim2_counterexample :
    (1 * 100 : ℚ) ^ 2 < sqDist ⟨200,0⟩ ⟨0,0⟩ ∧
    chain_segs 1 [(⟨0,0⟩,⟨100,0⟩), (⟨100,0⟩,⟨200,0⟩)] =
      [(⟨0,0⟩,⟨100,0⟩), (⟨100,0⟩,⟨200,0⟩), (⟨200,0⟩,⟨0,0⟩)] := by
  constructor
  · norm_num [sqDist]
  · norm_num [chain_segs, buildSorted, findNext, sqDist]

/-- C2 (amended): after greedy chaining, a single synthetic closing edge is
created exactly when the chain kept more than one curve and the closing gap
exceeds the connection tolerance `tol * 10`, with no upper bound on the gap;
the separate bridging pass of the main loop inserts connecting edges (between
consecutive kept curves and for the final closure) only for gaps strictly
between `tol` and `tol * 100`. -/
theorem claim2_amended :
    (∀ (tol : ℚ) (s : Seg) (rest : List Seg),
      (1 < (greedy_chain tol (s :: rest)).length ∧
          (tol * 10) ^ 2 < sqDist ((greedy_chain tol (s :: rest)).getD 0 s).1
            ((greedy_chain tol (s :: rest)).getLastD s).2 →
        chain_segs tol (s :: rest) = greedy_chain tol (s :: rest) ++
          [(((greedy_chain tol (s :: rest)).getLastD s).2,
            ((greedy_chain tol (s :: rest)).getD 0 s).1)]) ∧
      (¬ (1 < (greedy_chain tol (s :: rest)).length ∧
          (tol * 10) ^ 2 < sqDist ((greedy_chain tol (s :: rest)).getD 0 s).1
            ((greedy_chain tol (s :: rest)).getLastD s).2) →
        chain_segs tol (s :: rest) = greedy_chain tol (s :: rest))) ∧
    (∀ (tol : ℚ) (curves : List Seg) (c : Seg), c ∈ bridge_pass tol curves →
      c ∈ curves ∨ (tol ^ 2 < sqDist c.1 c.2 ∧ sqDist c.1 c.2 < (tol * 100) ^ 2)) := by
  constructor
  · intro tol s rest
    constructor
    · rintro ⟨h1, h2⟩
      simp only [chain_segs, greedy_chain] at *
      rw [if_pos h1, if_pos h2]
    · intro hn
      simp only [chain_segs, greedy_chain] at *
      by_cases h1 : 1 < (buildSorted tol rest.length [s] rest).length
      · rw [if_pos h1]
        rw [if_neg (by tauto)]
      · rw [if_neg h1]
  · intro tol curves c h
    simp only [bridge_pass] at h
    rcases hf : curves.find? (fun c => ¬ sqDist c.1 c.2 < tol ^ 2) with _ | c0
    · rw [hf] at h
      simp at h
    · rw [hf] at h
      dsimp only at h
      rcases hl : (bridgeWalk tol c0.1 curves).getLast? with _ | clast
      · rw [hl] at h
        simp at h
      · rw [hl] at h
        dsimp only at h
        split_ifs at h with hgap
        · rcases List.mem_append.mp h with h' | h'
          · exact bridgeWalk_mem tol c0.1 curves c h'
          · simp only [List.mem_cons, List.not_mem_nil, or_false] at h'
            subst h'
            exact Or.inr hgap
        · exact bridgeWalk_mem tol c0.1 curves c h

/-- C2 witness: the amended theorem applied at concrete inputs: a 2-segment
chain with closing gap above `tol * 10` receives its closing edge, and a
member of a concrete bridge pass is classified. -/
theorem claim2_witness :
    chain_segs 2 [(⟨0,0⟩,⟨50,0⟩), (⟨50,0⟩,⟨50,50⟩)] =
      [(⟨0,0⟩,⟨50,0⟩), (⟨50,0⟩,⟨50,50⟩), (⟨50,50⟩,⟨0,0⟩)] ∧
    ((⟨0,0⟩,⟨200,0⟩) ∈ ([(⟨0,0⟩,⟨200,0⟩)] : List Seg) ∨
      ((100 : ℚ) ^ 2 < sqDist ⟨0,0⟩ ⟨200,0⟩ ∧ sqDist ⟨0,0⟩ ⟨200,0⟩ < (100 * 100 : ℚ) ^ 2)) := by
  constructor
  · have hg : greedy_chain 2 [(⟨0,0⟩,⟨50,0⟩), (⟨50,0⟩,⟨50,50⟩)] =
        [(⟨0,0⟩,⟨50,0⟩), (⟨50,0⟩,⟨50,50⟩)] := by
      norm_num [greedy_chain, buildSorted, findNext, sqDist]
    have := (claim2_amended.1 2 (⟨0,0⟩,⟨50,0⟩) [(⟨50,0⟩,⟨50,50⟩)]).1
      (by rw [hg]; constructor
          · norm_num
          · norm_num [sqDist, List.getD])
    rw [this, hg]
    norm_num [List.getD]
  · exact claim2_amended.2 100 [(⟨0,0⟩,⟨200,0⟩)] (⟨0,0⟩,⟨200,0⟩)
      (by norm_num [bridge_pass, bridgeWalk, sqDist, List.find?])
theorem getLastD_cons_mem (p : Pt) (rest : List Pt) : (p :: rest).getLastD p ∈ p :: rest := by
  rw [List.getLastD_eq_getLast?]
  rcases h : (p :: rest).getLast? with _ | a
  · simp at h
  · obtain ⟨_, h2⟩ := List.mem_getLast?_eq_getLast (Option.mem_def.mpr h)
    simp only [Option.getD_some]
    rw [h2]
    exact List.getLast_mem _

theorem clipStep_mem (inside : Pt → Bool) (isect : Pt → Pt → Pt) (L : List Pt) :
    ∀ (l : List Pt) (prev : Pt), prev ∈ L → (∀ x ∈ l, x ∈ L) →
      ∀ v ∈ clipStep inside isect prev l,
        (v ∈ L ∧ inside v = true) ∨
        ∃ a ∈ L, ∃ b ∈ L, inside a ≠ inside b ∧ v = isect a b := by
  intro l
  induction l with
  | nil => intro prev _ _ v hv; simp [clipStep] at hv
  | cons curr rest ih =>
    intro prev hprev hl v hv
    have hcurr : curr ∈ L := hl curr (List.mem_cons_self _ _)
    simp only [clipStep] at hv
    rcases List.mem_append.mp hv with hv | hv
    · split_ifs at hv with h1 h2 h3
      · simp only [List.mem_cons, List.not_mem_nil, or_false] at hv
        subst hv
        exact Or.inl ⟨hcurr, h1⟩
      · simp only [List.mem_cons, List.not_mem_nil, or_false] at hv
        rcases hv with hv | hv
        · subst hv
          exact Or.inr ⟨prev, hprev, curr, hcurr, by simp [h1, h2], rfl⟩
        · subst hv
          exact Or.inl ⟨hcurr, h1⟩
      · simp only [List.mem_cons, List.not_mem_nil, or_false] at hv
        subst hv
        exact Or.inr ⟨prev, hprev, curr, hcurr, by simp [h1, h3], rfl⟩
      · simp at hv
    · exact ih curr hcurr (fun x hx => hl x (List.mem_cons_of_mem _ hx)) v hv

theorem clip_edge_mem (inside : Pt → Bool) (isect : Pt → Pt → Pt) (pts : List Pt) :
    ∀ v ∈ clip_edge inside isect pts,
      (v ∈ pts ∧ inside v = true) ∨
      ∃ a ∈ pts, ∃ b ∈ pts, inside a ≠ inside b ∧ v = isect a b := by
  intro v hv
  cases pts with
  | nil => simp [clip_edge] at hv
  | cons p rest =>
    exact clipStep_mem inside isect (p :: rest) (p :: rest) _
      (getLastD_cons_mem p rest) (fun x hx => hx) v hv

theorem intersect_x_fst (p1 p2 : Pt) (xc : ℚ) : (intersect_x p1 p2 xc).x = xc := by
  simp only [intersect_x]
  split_ifs <;> rfl

theorem intersect_y_snd (p1 p2 : Pt) (yc : ℚ) : (intersect_y p1 p2 yc).y = yc := by
  simp only [intersect_y]
  split_ifs <;> rfl

theorem intersect_y_fst_bound (p1 p2 : Pt) (yc lo hi : ℚ)
    (h1lo : lo ≤ p1.x) (h1hi : p1.x ≤ hi) (h2lo : lo ≤ p2.x) (h2hi : p2.x ≤ hi)
    (hbet : (p1.y ≤ yc ∧ yc ≤ p2.y) ∨ (p2.y ≤ yc ∧ yc ≤ p1.y)) :
    lo ≤ (intersect_y p1 p2 yc).x ∧ (intersect_y p1 p2 yc).x ≤ hi := by
  simp only [intersect_y]
  split_ifs with hd
  · exact ⟨h1lo, h1hi⟩
  · have hdy : p2.y - p1.y ≠ 0 := by
      intro e
      rw [e] at hd
      norm_num at hd
    set t : ℚ := (yc - p1.y) / (p2.y - p1.y) with ht
    have ht01 : 0 ≤ t ∧ t ≤ 1 := by
      rcases hbet with ⟨hb1, hb2⟩ | ⟨hb1, hb2⟩
      · have hpos : 0 < p2.y - p1.y := lt_of_le_of_ne (by linarith) (Ne.symm hdy)
        constructor
        · exact div_nonneg (by linarith) (le_of_lt hpos)
        · rw [div_le_one hpos]
          linarith
      · have hneg : p2.y - p1.y < 0 := lt_of_le_of_ne (by linarith) hdy
        constructor
        · rw [ht, div_nonneg_iff]
          exact Or.inr ⟨by linarith, le_of_lt hneg⟩
        · rw [ht, div_le_one_iff]
          exact Or.inr (Or.inr ⟨hneg, by linarith⟩)
    obtain ⟨ht0, ht1⟩ := ht01
    constructor
    · show lo ≤ p1.x + t * (p2.x - p1.x)
      nlinarith [mul_nonneg ht0 (by linarith : (0:ℚ) ≤ p2.x - lo),
        mul_nonneg (by linarith : (0:ℚ) ≤ 1 - t) (by linarith : (0:ℚ) ≤ p1.x - lo)]
    · show p1.x + t * (p2.x - p1.x) ≤ hi
      nlinarith [mul_nonneg ht0 (by linarith : (0:ℚ) ≤ hi - p2.x),
        mul_nonneg (by linarith : (0:ℚ) ≤ 1 - t) (by linarith : (0:ℚ) ≤ hi - p1.x)]

/-- C5: clip containment.  Every vertex of the Sutherland-Hodgman clip of any
polygon against the rectangle `[xmin,xmax] x [ymin,ymax]` lies inside the
rectangle inflated by any non-negative `eps` (the result holds exactly, with
`eps = 0`, over exact arithmetic). -/
theorem claim5_clip_containment (points : List Pt) (xmin ymin xmax ymax eps : ℚ)
    (hx : xmin ≤ xmax) (hy : ymin ≤ ymax) (heps : 0 ≤ eps) :
    ∀ v ∈ clip_polygon_to_rect points xmin ymin xmax ymax,
      xmin - eps ≤ v.x ∧ v.x ≤ xmax + eps ∧ ymin - eps ≤ v.y ∧ v.y ≤ ymax + eps := by
  intro v hv
  simp only [clip_polygon_to_rect] at hv
  -- stage 1: left clip establishes xmin ≤ x
  have hP1 : ∀ w ∈ clip_edge (fun p => xmin ≤ p.x) (fun a b => intersect_x a b xmin) points,
      xmin ≤ w.x := by
    intro w hw
    rcases clip_edge_mem _ _ _ w hw with ⟨_, hins⟩ | ⟨a, _, b, _, _, rfl⟩
    · simpa using hins
    · rw [intersect_x_fst]
  -- stage 2: right clip preserves it and establishes x ≤ xmax
  have hP2 : ∀ w ∈ clip_edge (fun p => p.x ≤ xmax) (fun a b => intersect_x a b xmax)
      (clip_edge (fun p => xmin ≤ p.x) (fun a b => intersect_x a b xmin) points),
      xmin ≤ w.x ∧ w.x ≤ xmax := by
    intro w hw
    rcases clip_edge_mem _ _ _ w hw with ⟨hmem, hins⟩ | ⟨a, _, b, _, _, rfl⟩
    · exact ⟨hP1 w hmem, by simpa using hins⟩
    · rw [intersect_x_fst]
      exact ⟨hx, le_refl _⟩
  -- stage 3: bottom clip preserves x-bounds and establishes ymin ≤ y
  have hP3 : ∀ w ∈ clip_edge (fun p => ymin ≤ p.y) (fun a b => intersect_y a b ymin)
      (clip_edge (fun p => p.x ≤ xmax) (fun a b => intersect_x a b xmax)
        (clip_edge (fun p => xmin ≤ p.x) (fun a b => intersect_x a b xmin) points)),
      (xmin ≤ w.x ∧ w.x ≤ xmax) ∧ ymin ≤ w.y := by
    intro w hw
    rcases clip_edge_mem _ _ _ w hw with ⟨hmem, hins⟩ | ⟨a, ha, b, hb, hne, rfl⟩
    · exact ⟨hP2 w hmem, by simpa using hins⟩
    · obtain ⟨halo, hahi⟩ := hP2 a ha
      obtain ⟨hblo, hbhi⟩ := hP2 b hb
      have hbet : (a.y ≤ ymin ∧ ymin ≤ b.y) ∨ (b.y ≤ ymin ∧ ymin ≤ a.y) := by
        by_cases hA : ymin ≤ a.y
        · by_cases hB : ymin ≤ b.y
          · exact absurd (by simp [hA, hB]) hne
          · exact Or.inr ⟨by linarith, hA⟩
        · by_cases hB : ymin ≤ b.y
          · exact Or.inl ⟨by linarith, hB⟩
          · exact absurd (by simp [hA, hB]) hne
      refine ⟨intersect_y_fst_bound a b ymin xmin xmax halo hahi hblo hbhi hbet, ?_⟩
      rw [intersect_y_snd]
  -- stage 4: top clip preserves everything and establishes y ≤ ymax
  have hP4 : ∀ w ∈ clip_edge (fun p => p.y ≤ ymax) (fun a b => intersect_y a b ymax)
      (clip_edge (fun p => ymin ≤ p.y) (fun a b => intersect_y a b ymin)
        (clip_edge (fun p => p.x ≤ xmax) (fun a b => intersect_x a b xmax)
          (clip_edge (fun p => xmin ≤ p.x) (fun a b => intersect_x a b xmin) points))),
      (xmin ≤ w.x ∧ w.x ≤ xmax) ∧ ymin ≤ w.y ∧ w.y ≤ ymax := by
    intro w hw
    rcases clip_edge_mem _ _ _ w hw with ⟨hmem, hins⟩ | ⟨a, ha, b, hb, hne, rfl⟩
    · obtain ⟨hxb, hyb⟩ := hP3 w hmem
      exact ⟨hxb, hyb, by simpa using hins⟩
    · obtain ⟨⟨halo, hahi⟩, hay⟩ := hP3 a ha
      obtain ⟨⟨hblo, hbhi⟩, hby⟩ := hP3 b hb
      have hbet : (a.y ≤ ymax ∧ ymax ≤ b.y) ∨ (b.y ≤ ymax ∧ ymax ≤ a.y) := by
        by_cases hA : a.y ≤ ymax
        · by_cases hB : b.y ≤ ymax
          · exact absurd (by simp [hA, hB]) hne
          · exact Or.inl ⟨hA, by linarith⟩
        · by_cases hB : b.y ≤ ymax
          · exact Or.inr ⟨hB, by linarith⟩
          · exact absurd (by simp [hA, hB]) hne
      refine ⟨intersect_y_fst_bound a b ymax xmin xmax halo hahi hblo hbhi hbet, ?_, ?_⟩
      · rw [intersect_y_snd]
        exact hy
      · rw [intersect_y_snd]
  obtain ⟨⟨h1, h2⟩, h3, h4⟩ := hP4 v hv
  exact ⟨by linarith, by linarith, by linarith, by linarith⟩

/-- C5 witness: the containment theorem applied to a concrete polygon and
rectangle. -/
theorem claim5_witness :
    ((0:ℚ) ≤ 2 ∧ (0:ℚ) ≤ 3 ∧ (0:ℚ) ≤ 0) ∧
    (⟨1,1⟩ : Pt) ∈ clip_polygon_to_rect [⟨1,1⟩] 0 0 2 3 ∧
    ((0:ℚ) - 0 ≤ (⟨1,1⟩ : Pt).x ∧ (⟨1,1⟩ : Pt).x ≤ 2 + 0 ∧
      (0:ℚ) - 0 ≤ (⟨1,1⟩ : Pt).y ∧ (⟨1,1⟩ : Pt).y ≤ 3 + 0) := by
  have hmem : (⟨1,1⟩ : Pt) ∈ clip_polygon_to_rect [⟨1,1⟩] 0 0 2 3 := by
    norm_num [clip_polygon_to_rect, clip_edge, clipStep]
  exact ⟨⟨by norm_num, by norm_num, le_refl 0⟩, hmem,
    claim5_clip_containment [⟨1,1⟩] 0 0 2 3 0 (by norm_num) (by norm_num) (le_refl 0)
      ⟨1,1⟩ hmem⟩
theorem placeSolid_length (u : Solid → Solid → Option Solid) (bb : Solid → Option Rect)
    (tol : ℚ) (s : Solid) (sb : Rect) :
    ∀ gs gs', placeSolid u bb tol s sb gs = some gs' → gs'.length = gs.length := by
  intro gs
  induction gs with
  | nil => intro gs' h; simp [placeSolid] at h
  | cons g rest ih =>
    intro gs' h
    simp only [placeSolid] at h
    rcases hbb : bb g with _ | gb
    · rw [hbb] at h
      dsimp only at h
      rcases hrec : placeSolid u bb tol s sb rest with _ | gs''
      · rw [hrec] at h; cases h
      · rw [hrec] at h
        cases h
        simp [ih gs'' hrec]
    · rw [hbb] at h
      dsimp only at h
      split_ifs at h with hov
      · rcases hu : tryUnion u g s with _ | un
        · rw [hu] at h
          dsimp only at h
          rcases hrec : placeSolid u bb tol s sb rest with _ | gs''
          · rw [hrec] at h; cases h
          · rw [hrec] at h
            cases h
            simp [ih gs'' hrec]
        · rw [hu] at h
          cases h
          simp
      · rcases hrec : placeSolid u bb tol s sb rest with _ | gs''
        · rw [hrec] at h; cases h
        · rw [hrec] at h
          cases h
          simp [ih gs'' hrec]

theorem greedyGroups_bounds (u : Solid → Solid → Option Solid) (bb : Solid → Option Rect)
    (tol : ℚ) :
    ∀ (solids groups : List Solid),
      groups.length ≤ (List.foldl (fun groups s =>
          match bb s with
          | none => groups ++ [s]
          | some sb =>
            match placeSolid u bb tol s sb groups with
            | some groups' => groups'
            | none => groups ++ [s]) groups solids).length ∧
      (List.foldl (fun groups s =>
          match bb s with
          | none => groups ++ [s]
          | some sb =>
            match placeSolid u bb tol s sb groups with
            | some groups' => groups'
            | none => groups ++ [s]) groups solids).length ≤ groups.length + solids.length := by
  intro solids
  induction solids with
  | nil => intro groups; simp
  | cons s rest ih =>
    intro groups
    simp only [List.foldl_cons]
    have hstep : groups.length ≤ (match bb s with
        | none => groups ++ [s]
        | some sb =>
          match placeSolid u bb tol s sb groups with
          | some groups' => groups'
          | none => groups ++ [s]).length ∧
        (match bb s with
        | none => groups ++ [s]
        | some sb =>
          match placeSolid u bb tol s sb groups with
          | some groups' => groups'
          | none => groups ++ [s]).length ≤ groups.length + 1 := by
      rcases hbb : bb s with _ | sb
      · simp [hbb]
      · rcases hp : placeSolid u bb tol s sb groups with _ | groups'
        · simp [hbb, hp]
        · have := placeSolid_length u bb tol s sb groups groups' hp
          simp [hbb, hp, this]
    obtain ⟨h1, h2⟩ := hstep
    obtain ⟨h3, h4⟩ := ih (match bb s with
        | none => groups ++ [s]
        | some sb =>
          match placeSolid u bb tol s sb groups with
          | some groups' => groups'
          | none => groups ++ [s])
    constructor
    · omega
    · simp only [List.length_cons]
      omega

theorem scanCands_survivors_le (u : Solid → Solid → Option Solid) (bb : Solid → Option Rect)
    (tol : ℚ) :
    ∀ (cands : List Solid) (base : Solid),
      (scanCands u bb tol base cands).2.1.length ≤ cands.length := by
  intro cands
  induction cands with
  | nil => intro base; simp [scanCands]
  | cons c rest ih =>
    intro base
    simp only [scanCands]
    rcases hm : (match bb base, bb c with
      | some b1, some b2 =>
        if bb_overlap2d b1 b2 (tol * 10) then tryUnion u base c else none
      | _, _ => (none : Option Solid)) with _ | un
    · rw [hm]
      dsimp only
      simpa using ih base
    · rw [hm]
      dsimp only
      simpa using Nat.le_succ_of_le (ih un)

theorem sweepGroups_bounds (u : Solid → Solid → Option Solid) (bb : Solid → Option Rect)
    (tol : ℚ) :
    ∀ (fuel : Nat) (gs acc : List Solid) (ch : Bool),
      acc.length ≤ (sweepGroups u bb tol fuel gs acc ch).1.length ∧
      (sweepGroups u bb tol fuel gs acc ch).1.length ≤ acc.length + gs.length ∧
      (gs ≠ [] → 1 ≤ fuel → acc.length + 1 ≤ (sweepGroups u bb tol fuel gs acc ch).1.length) := by
  intro fuel
  induction fuel with
  | zero =>
    intro gs acc ch
    refine ⟨le_refl _, by simp [sweepGroups], fun _ h => absurd h (by norm_num)⟩
  | succ fuel ih =>
    intro gs acc ch
    cases gs with
    | nil => exact ⟨le_refl _, by simp [sweepGroups], fun h _ => absurd rfl h⟩
    | cons g rest =>
      simp only [sweepGroups]
      rcases hs : scanCands u bb tol ((g :: rest).getLastD ⟨[]⟩) (g :: rest).dropLast
        with ⟨base', survivors, merged⟩
      dsimp only
      have hsurv : survivors.length ≤ rest.length := by
        have h2 := scanCands_survivors_le u bb tol (g :: rest).dropLast
          ((g :: rest).getLastD ⟨[]⟩)
        rw [hs] at h2
        simpa using h2
      obtain ⟨i1, i2, _⟩ := ih survivors (acc ++ [base']) (ch || merged)
      refine ⟨?_, ?_, ?_⟩
      · calc acc.length ≤ (acc ++ [base']).length := by simp
          _ ≤ _ := i1
      · refine le_trans i2 ?_
        simp only [List.length_append, List.length_cons, List.length_nil]
        omega
      · intro _ _
        calc acc.length + 1 = (acc ++ [base']).length := by simp
          _ ≤ _ := i1

theorem fixGroups_bounds (u : Solid → Solid → Option Solid) (bb : Solid → Option Rect)
    (tol : ℚ) :
    ∀ (fuel : Nat) (groups : List Solid), 1 ≤ groups.length →
      1 ≤ (fixGroups u bb tol fuel groups).length ∧
      (fixGroups u bb tol fuel groups).length ≤ groups.length := by
  intro fuel
  induction fuel with
  | zero => intro groups h; exact ⟨h, le_refl _⟩
  | succ fuel ih =>
    intro groups h
    simp only [fixGroups]
    by_cases hlen : 1 < groups.length
    · rw [if_pos hlen]
      rcases hs : sweepGroups u bb tol groups.length groups [] false with ⟨g', ch⟩
      dsimp only
      obtain ⟨_, s2, s3⟩ := sweepGroups_bounds u bb tol groups.length groups [] false
      rw [hs] at s2 s3
      dsimp only at s2 s3
      have hg1 : 1 ≤ g'.length :=
        s3 (by intro e; rw [e] at hlen; simp at hlen) (by omega)
      have hg2 : g'.length ≤ groups.length := by simpa using s2
      cases ch with
      | true =>
        obtain ⟨f1, f2⟩ := ih g' hg1
        exact ⟨f1, f2.trans hg2⟩
      | false => exact ⟨hg1, hg2⟩
    · rw [if_neg hlen]
      exact ⟨h, le_refl _⟩

/-- C10: for every non-empty input list of solids, `merge_solids_groups`
returns between 1 and n groups, for any behaviour of the external union and
bounding-box operations — so the `"Failed to assemble solids"` branch in the
main script is unreachable whenever at least one wafer solid was created. -/
theorem claim10_group_count (u : Solid → Solid → Option Solid) (bb : Solid → Option Rect)
    (tol : ℚ) (solids : List Solid) (h : solids ≠ []) :
    1 ≤ (merge_solids_groups u bb tol solids).length ∧
    (merge_solids_groups u bb tol solids).length ≤ solids.length := by
  cases solids with
  | nil => exact absurd rfl h
  | cons s rest =>
    simp only [merge_solids_groups]
    obtain ⟨g1, g2⟩ := greedyGroups_bounds u bb tol (s :: rest) []
    have hg1 : 1 ≤ (greedyGroups u bb tol (s :: rest)).length := by
      have hstep := greedyGroups_bounds u bb tol rest
        (match bb s with
         | none => [] ++ [s]
         | some sb =>
           match placeSolid u bb tol s sb [] with
           | some groups' => groups'
           | none => [] ++ [s])
      have hone : (match bb s with
         | none => ([] : List Solid) ++ [s]
         | some sb =>
           match placeSolid u bb tol s sb [] with
           | some groups' => groups'
           | none => [] ++ [s]).length = 1 := by
        rcases hbb : bb s with _ | sb
        · simp [hbb]
        · simp [hbb, placeSolid]
      unfold greedyGroups
      rw [List.foldl_cons]
      obtain ⟨h1, _⟩ := hstep
      rw [hone] at h1
      exact h1
    have hg2 : (greedyGroups u bb tol (s :: rest)).length ≤ (s :: rest).length := by
      simpa [greedyGroups] using g2
    obtain ⟨f1, f2⟩ := fixGroups_bounds u bb tol
      (greedyGroups u bb tol (s :: rest)).length (greedyGroups u bb tol (s :: rest)) hg1
    exact ⟨f1, f2.trans hg2⟩

/-- C10 witness: a singleton solid list with failing external operations still
yields exactly one group. -/
theorem claim10_witness :
    1 ≤ (merge_solids_groups (fun _ _ => none) (fun _ => none) 1 [⟨[]⟩]).length ∧
    (merge_solids_groups (fun _ _ => none) (fun _ => none) 1 [⟨[]⟩]).length ≤
      ([⟨[]⟩] : List Solid).length :=
  claim10_group_count _ _ 1 [⟨[]⟩] (by simp)

theorem bb_overlap2d_symm (a b : Rect) (t : ℚ) (h : ¬ bb_overlap2d a b t) :
    ¬ bb_overlap2d b a t := by
  unfold bb_overlap2d at *
  tauto

theorem placeSolid_none (u : Solid → Solid → Option Solid) (bb : Solid → Option Rect)
    (tol : ℚ) (s : Solid) (sb : Rect) :
    ∀ gs, (∀ g ∈ gs, ∀ gb, bb g = some gb → ¬ bb_overlap2d sb gb (tol * 10)) →
      placeSolid u bb tol s sb gs = none := by
  intro gs
  induction gs with
  | nil => intro _; rfl
  | cons g rest ih =>
    intro hno
    simp only [placeSolid]
    rcases hbb : bb g with _ | gb
    · dsimp only
      rw [ih fun g' hg' => hno g' (List.mem_cons_of_mem _ hg')]
    · dsimp only
      rw [if_neg (hno g (List.mem_cons_self _ _) gb hbb)]
      rw [ih fun g' hg' => hno g' (List.mem_cons_of_mem _ hg')]

theorem greedy_fold_id (u : Solid → Solid → Option Solid) (bb : Solid → Option Rect)
    (tol : ℚ) :
    ∀ (solids groups : List Solid),
      (∀ s ∈ solids, ∀ g ∈ groups, NoBBOverlap bb tol s g) →
      List.Pairwise (NoBBOverlap bb tol) solids →
      List.foldl (fun groups s =>
          match bb s with
          | none => groups ++ [s]
          | some sb =>
            match placeSolid u bb tol s sb groups with
            | some groups' => groups'
            | none => groups ++ [s]) groups solids = groups ++ solids := by
  intro solids
  induction solids with
  | nil => intro groups _ _; simp
  | cons s rest ih =>
    intro groups hsg hp
    rw [List.pairwise_cons] at hp
    obtain ⟨hs_rest, hp_rest⟩ := hp
    have hstep : (match bb s with
        | none => groups ++ [s]
        | some sb =>
          match placeSolid u bb tol s sb groups with
          | some groups' => groups'
          | none => groups ++ [s]) = groups ++ [s] := by
      rcases hbb : bb s with _ | sb
      · rfl
      · dsimp only
        rw [placeSolid_none u bb tol s sb groups
          (fun g hg gb hgb => hsg s (List.mem_cons_self _ _) g hg sb gb hbb hgb)]
    rw [List.foldl_cons, hstep]
    rw [ih (groups ++ [s]) ?_ hp_rest]
    · simp
    · intro s' hs' g hg
      rcases List.mem_append.mp hg with hg | hg
      · exact hsg s' (List.mem_cons_of_mem _ hs') g hg
      · simp only [List.mem_cons, List.not_mem_nil, or_false] at hg
        subst hg
        intro rs rg h1 h2
        exact bb_overlap2d_symm _ _ _ (hs_rest s' hs' rg rs h2 h1)

theorem scanCands_id (u : Solid → Solid → Option Solid) (bb : Solid → Option Rect)
    (tol : ℚ) :
    ∀ (cands : List Solid) (base : Solid),
      (∀ c ∈ cands, NoBBOverlap bb tol base c) →
      scanCands u bb tol base cands = (base, cands, false) := by
  intro cands
  induction cands with
  | nil => intro base _; rfl
  | cons c rest ih =>
    intro base hno
    simp only [scanCands]
    have hm : (match bb base, bb c with
        | some b1, some b2 =>
          if bb_overlap2d b1 b2 (tol * 10) then tryUnion u base c else none
        | _, _ => (none : Option Solid)) = none := by
      rcases h1 : bb base with _ | b1
      · rfl
      · rcases h2 : bb c with _ | b2
        · rfl
        · dsimp only
          rw [if_neg (hno c (List.mem_cons_self _ _) b1 b2 h1 h2)]
    rw [hm]
    dsimp only
    rw [ih base fun c' hc' => hno c' (List.mem_cons_of_mem _ hc')]

theorem sweepGroups_id (u : Solid → Solid → Option Solid) (bb : Solid → Option Rect)
    (tol : ℚ) :
    ∀ (fuel : Nat) (gs acc : List Solid) (ch : Bool), gs.length ≤ fuel →
      List.Pairwise (NoBBOverlap bb tol) gs →
      sweepGroups u bb tol fuel gs acc ch = (acc ++ gs.reverse, ch) := by
  intro fuel
  induction fuel with
  | zero =>
    intro gs acc ch hf _
    have : gs = [] := List.length_eq_zero.mp (Nat.le_zero.mp hf)
    subst this
    simp [sweepGroups]
  | succ fuel ih =>
    intro gs acc ch hf hp
    cases hg : gs with
    | nil => simp [sweepGroups]
    | cons g rest =>
      subst hg
      have hne : (g :: rest) ≠ [] := by simp
      have hsplit : (g :: rest).dropLast ++ [(g :: rest).getLast hne] = g :: rest :=
        List.dropLast_append_getLast hne
      have hlastD : (g :: rest).getLastD ⟨[]⟩ = (g :: rest).getLast hne := by
        rw [List.getLastD_eq_getLast?, List.getLast?_eq_getLast _ hne]
        rfl
      have hpair : ∀ c ∈ (g :: rest).dropLast,
          NoBBOverlap bb tol ((g :: rest).getLast hne) c := by
        intro c hc
        have hp2 : List.Pairwise (NoBBOverlap bb tol)
            ((g :: rest).dropLast ++ [(g :: rest).getLast hne]) := by
          rw [hsplit]; exact hp
        rw [List.pairwise_append] at hp2
        intro ra rb h1 h2
        exact bb_overlap2d_symm _ _ _
          (hp2.2.2 c hc _ (List.mem_cons_self _ _) rb ra h2 h1)
      simp only [sweepGroups]
      rw [hlastD, scanCands_id u bb tol _ _ hpair]
      dsimp only
      have hplen : (g :: rest).dropLast.length ≤ fuel := by
        simp only [List.length_dropLast, List.length_cons] at *
        omega
      have hpdl : List.Pairwise (NoBBOverlap bb tol) (g :: rest).dropLast := by
        have hp2 : List.Pairwise (NoBBOverlap bb tol)
            ((g :: rest).dropLast ++ [(g :: rest).getLast hne]) := by
          rw [hsplit]; exact hp
        rw [List.pairwise_append] at hp2
        exact hp2.1
      rw [ih _ _ _ hplen hpdl]
      rw [Bool.or_false]
      have hrev : (g :: rest).reverse =
          (g :: rest).getLast hne :: (g :: rest).dropLast.reverse := by
        conv_lhs => rw [← hsplit]
        simp [List.reverse_append]
      congr 1
      rw [hrev]
      simp

/-- C7 (amended): when the margin-inflated bounding boxes of the input solids
are pairwise non-overlapping, `merge_solids_groups` performs no union at all
and returns the same set of solids — one island per input, in reversed list
order (the second pass rebuilds the list back to front). -/
theorem claim7_amended (u : Solid → Solid → Option Solid) (bb : Solid → Option Rect)
    (tol : ℚ) (solids : List Solid)
    (hp : List.Pairwise (NoBBOverlap bb tol) solids) :
    merge_solids_groups u bb tol solids = solids.reverse := by
  cases hs : solids with
  | nil => rfl
  | cons s rest =>
    subst hs
    simp only [merge_solids_groups]
    have hgreedy : greedyGroups u bb tol (s :: rest) = s :: rest := by
      unfold greedyGroups
      rw [greedy_fold_id u bb tol (s :: rest) [] (by intro _ _ _ hg; simp at hg) hp]
      simp
    rw [hgreedy]
    cases rest with
    | nil => rfl
    | cons s2 rest2 =>
      rw [show (s :: s2 :: rest2).length = (s2 :: rest2).length + 1 from rfl]
      simp only [fixGroups]
      rw [if_pos (by simp)]
      rw [sweepGroups_id u bb tol _ _ _ _ (le_refl _) hp]
      dsimp only
      simp

/-- C7: the claim says pairwise-disjoint polygons are never combined into one
island.  Two geometrically disjoint triangle footprints whose axis-aligned
bounding boxes overlap are unioned by the merger into a single island (the
boolean union of their wafers succeeds), shrinking the island count from 2
to 1. -/
theorem claim7_counterexample :
    Disjoint
      (convexHull ℝ {toR ⟨0,0⟩, toR ⟨1,0⟩, toR ⟨0,1⟩})
      (convexHull ℝ {toR ⟨1,1⟩, toR ⟨9/10,1⟩, toR ⟨1,9/10⟩}) ∧
    (merge_solids_groups unionPolys solidBBox 1
      [⟨[[⟨0,0⟩, ⟨1,0⟩, ⟨0,1⟩]]⟩, ⟨[[⟨1,1⟩, ⟨9/10,1⟩, ⟨1,9/10⟩]]⟩]).length = 1 := by
  constructor
  · have h1 : convexHull ℝ {toR ⟨0,0⟩, toR ⟨1,0⟩, toR ⟨0,1⟩} ⊆
        {p : ℝ × ℝ | p.1 + p.2 ≤ 1} := by
      apply convexHull_min
      · intro p hp
        rcases hp with hp | hp | hp <;> (rw [hp]; norm_num [toR])
      · intro x hx y hy a b ha hb hab
        simp only [Set.mem_setOf_eq, Prod.fst_add, Prod.snd_add, Prod.smul_fst,
          Prod.smul_snd, smul_eq_mul] at *
        nlinarith
    have h2 : convexHull ℝ {toR ⟨1,1⟩, toR ⟨9/10,1⟩, toR ⟨1,9/10⟩} ⊆
        {p : ℝ × ℝ | (19:ℝ)/10 ≤ p.1 + p.2} := by
      apply convexHull_min
      · intro p hp
        rcases hp with hp | hp | hp <;> (rw [hp]; norm_num [toR])
      · intro x hx y hy a b ha hb hab
        simp only [Set.mem_setOf_eq, Prod.fst_add, Prod.snd_add, Prod.smul_fst,
          Prod.smul_snd, smul_eq_mul] at *
        nlinarith
    rw [Set.disjoint_left]
    intro p hp1 hp2
    have := h1 hp1
    have := h2 hp2
    simp only [Set.mem_setOf_eq] at *
    linarith
  · norm_num [merge_solids_groups, greedyGroups, placeSolid, solidBBox, ptsOfSolid,
      unionPolys, tryUnion, bb_overlap2d, fixGroups, sweepGroups, scanCands]

/-- C7 witness: two far-apart unit squares with separated bounding boxes pass
through the merger unchanged (as a set; the list order is reversed). -/
theorem claim7_witness :
    merge_solids_groups unionPolys solidBBox (1/100)
      [⟨[[⟨0,0⟩, ⟨1,0⟩, ⟨1,1⟩, ⟨0,1⟩]]⟩, ⟨[[⟨10,10⟩, ⟨11,10⟩, ⟨11,11⟩, ⟨10,11⟩]]⟩] =
    [⟨[[⟨10,10⟩, ⟨11,10⟩, ⟨11,11⟩, ⟨10,11⟩]]⟩, ⟨[[⟨0,0⟩, ⟨1,0⟩, ⟨1,1⟩, ⟨0,1⟩]]⟩] := by
  rw [claim7_amended unionPolys solidBBox (1/100) _ ?_]
  · rfl
  · constructor
    · intro s hs
      simp only [List.mem_cons, List.not_mem_nil, or_false] at hs
      subst hs
      intro ra rb h1 h2
      norm_num [solidBBox, ptsOfSolid] at h1 h2
      rw [← h1, ← h2]
      norm_num [bb_overlap2d]
    · simp

theorem lexLt_trans {a b c : Pt} (h1 : lexLt a b) (h2 : lexLt b c) : lexLt a c := by
  unfold lexLt at *
  rcases h1 with h1 | ⟨h1, h1'⟩ <;> rcases h2 with h2 | ⟨h2, h2'⟩
  · exact Or.inl (h1.trans h2)
  · exact Or.inl (h2 ▸ h1)
  · exact Or.inl (h1 ▸ h2)
  · exact Or.inr ⟨h1.trans h2, h1'.trans h2'⟩

theorem lexLt_irrefl (a : Pt) : ¬ lexLt a a := by
  unfold lexLt
  rintro (h | ⟨_, h⟩) <;> exact lt_irrefl _ h

theorem lexLt_ne {a b : Pt} (h : lexLt a b) : a ≠ b := by
  intro e
  subst e
  exact lexLt_irrefl a h

theorem lexLt_total (a b : Pt) : lexLt a b ∨ a = b ∨ lexLt b a := by
  unfold lexLt
  rcases lt_trichotomy a.x b.x with h | h | h
  · exact Or.inl (Or.inl h)
  · rcases lt_trichotomy a.y b.y with h' | h' | h'
    · exact Or.inl (Or.inr ⟨h, h'⟩)
    · refine Or.inr (Or.inl ?_)
      cases a; cases b
      simp_all
    · exact Or.inr (Or.inr (Or.inr ⟨h.symm, h'⟩))
  · exact Or.inr (Or.inr (Or.inl h))

theorem lexLt_negPt {a b : Pt} : lexLt (negPt b) (negPt a) ↔ lexLt a b := by
  unfold lexLt negPt
  dsimp only
  constructor <;>
    (rintro (h | ⟨h, h'⟩)
     · exact Or.inl (by linarith)
     · exact Or.inr ⟨by linarith, by linarith⟩)

theorem cross_negPt (o a b : Pt) : cross (negPt o) (negPt a) (negPt b) = cross o a b := by
  unfold cross negPt
  ring

theorem cross_swap23 (o a b : Pt) : cross o b a = - cross o a b := by
  unfold cross
  ring

theorem cross_cyclic (o a b : Pt) : cross a b o = cross o a b := by
  unfold cross
  ring

theorem cross_collinear_param {A B C : Pt} (h : cross A B C = 0) (hne : A ≠ B) :
    ∃ s : ℚ, C.x - A.x = s * (B.x - A.x) ∧ C.y - A.y = s * (B.y - A.y) := by
  unfold cross at h
  by_cases hx : B.x - A.x = 0
  · have hy : B.y - A.y ≠ 0 := by
      intro hy
      apply hne
      cases A; cases B
      simp only [Pt.mk.injEq]
      constructor <;> [linarith; linarith]
    refine ⟨(C.y - A.y) / (B.y - A.y), ?_, by field_simp⟩
    have hcx : (B.y - A.y) * (C.x - A.x) = 0 := by
      rw [show B.x - A.x = 0 from hx] at h
      linarith [h]
    field_simp [hx]
    rcases mul_eq_zero.mp hcx with h' | h'
    · exact absurd h' hy
    · linarith
  · refine ⟨(C.x - A.x) / (B.x - A.x), by field_simp, ?_⟩
    field_simp
    linarith [h]

theorem cross_point_on_ray (A B q : Pt) (t : ℚ) :
    cross B ⟨B.x + t * (B.x - A.x), B.y + t * (B.y - A.y)⟩ q = t * cross A B q := by
  unfold cross
  ring

theorem lexLt_push {A B : Pt} (h : lexLt A B) (t : ℚ) (ht : 0 < t) :
    lexLt B ⟨B.x + t * (B.x - A.x), B.y + t * (B.y - A.y)⟩ := by
  unfold lexLt at *
  rcases h with h | ⟨h, h'⟩
  · exact Or.inl (by simp; nlinarith)
  · refine Or.inr ⟨by simp [h], by simp; nlinarith⟩

theorem collinear_line {A B a b c : Pt} (hne : A ≠ B)
    (ha : cross A B a = 0) (hb : cross A B b = 0) (hc : cross A B c = 0) :
    cross a b c = 0 := by
  obtain ⟨s1, h1x, h1y⟩ := cross_collinear_param ha hne
  obtain ⟨s2, h2x, h2y⟩ := cross_collinear_param hb hne
  obtain ⟨s3, h3x, h3y⟩ := cross_collinear_param hc hne
  unfold cross
  have e1 : a.x = A.x + s1 * (B.x - A.x) := by linarith
  have e2 : a.y = A.y + s1 * (B.y - A.y) := by linarith
  have e3 : b.x = A.x + s2 * (B.x - A.x) := by linarith
  have e4 : b.y = A.y + s2 * (B.y - A.y) := by linarith
  have e5 : c.x = A.x + s3 * (B.x - A.x) := by linarith
  have e6 : c.y = A.y + s3 * (B.y - A.y) := by linarith
  rw [e1, e2, e3, e4, e5, e6]
  ring

theorem wedge_lemma {a b c q : Pt} (hab : lexLt a b) (hbc : lexLt b c) (hcq : lexLt c q)
    (h1 : 0 < cross a b c) (h2 : 0 < cross b c q) : 0 < cross a b q := by
  unfold lexLt cross at *
  rcases hab with hab | ⟨hab, hab'⟩ <;> rcases hbc with hbc | ⟨hbc, hbc'⟩ <;>
    rcases hcq with hcq | ⟨hcq, hcq'⟩ <;> nlinarith

theorem rotate2_lemma {o b q p : Pt} (hob : lexLt o b) (hoq : o = q ∨ lexLt o q)
    (hbp : lexLt b p) (h1 : 0 ≤ cross o b q) (h2 : cross o b p ≤ 0) :
    0 ≤ cross o p q := by
  rcases hoq with rfl | hoq
  · unfold cross
    ring_nf
    exact le_refl _
  · have hqx : 0 ≤ q.x - o.x := by
      rcases hoq with h | ⟨h, _⟩ <;> linarith
    have hpxb : b.x ≤ p.x := by
      rcases hbp with h | ⟨h, _⟩ <;> linarith
    unfold cross at *
    rcases hob with hbx | ⟨hbx, hby⟩
    · have hpx : 0 < p.x - o.x := by linarith
      nlinarith [mul_nonneg h1 (le_of_lt hpx), mul_nonneg (neg_nonneg.mpr h2) hqx]
    · -- vertical first edge: b.x = o.x, o.y < b.y
      have hz : b.x - o.x = 0 := by linarith
      have hz1 : (b.x - o.x) * (q.y - o.y) = 0 := by rw [hz]; ring
      have h1' : (b.y - o.y) * (q.x - o.x) ≤ 0 := by linarith
      have hqx0 : q.x - o.x = 0 := by nlinarith
      have hqy : 0 ≤ q.y - o.y := by
        rcases hoq with h | ⟨_, h⟩
        · linarith
        · linarith
      have hpx : 0 ≤ p.x - o.x := by linarith
      have hz2 : (p.y - o.y) * (q.x - o.x) = 0 := by rw [hqx0]; ring
      have hz3 : 0 ≤ (p.x - o.x) * (q.y - o.y) := mul_nonneg hpx hqy
      linarith

theorem rotate3_lemma {u v q p : Pt} (huv : lexLt u v) (hqv : lexLt q v) (hvp : lexLt v p)
    (h1 : 0 ≤ cross u v q) (h2 : 0 < cross u v p) : 0 ≤ cross v p q := by
  have h1' : 0 ≤ cross v q u := by rw [cross_cyclic]; exact h1
  have h2' : 0 < cross v p u := by rw [cross_cyclic]; exact h2
  have hqx : q.x ≤ v.x := by
    rcases hqv with h | ⟨h, _⟩ <;> linarith
  have hpx : v.x ≤ p.x := by
    rcases hvp with h | ⟨h, _⟩ <;> linarith
  unfold cross at *
  rcases huv with hux | ⟨hux, huy⟩
  · -- u.x < v.x
    nlinarith [mul_nonneg (neg_nonneg.mpr (by linarith : q.x - v.x ≤ 0)) (le_of_lt h2'),
      mul_nonneg (by linarith : (0:ℚ) ≤ p.x - v.x) h1']
  · -- vertical: u.x = v.x, u.y < v.y: the hypothesis set is contradictory
    exfalso
    have hz : u.x - v.x = 0 := by linarith
    have hz1 : (p.y - v.y) * (u.x - v.x) = 0 := by rw [hz]; ring
    nlinarith [mul_nonneg (by linarith : (0:ℚ) ≤ p.x - v.x)
      (by linarith : (0:ℚ) ≤ v.y - u.y)]

theorem lexLe_iff {a b : Pt} : lexLe a b ↔ a = b ∨ lexLt a b := by
  unfold lexLe lexLt
  constructor
  · rintro (h | ⟨h, h'⟩)
    · exact Or.inr (Or.inl h)
    · rcases eq_or_lt_of_le h' with h'' | h''
      · exact Or.inl (by cases a; cases b; simp_all)
      · exact Or.inr (Or.inr ⟨h, h''⟩)
  · rintro (rfl | h | ⟨h, h'⟩)
    · exact Or.inr ⟨rfl, le_refl _⟩
    · exact Or.inl h
    · exact Or.inr ⟨h, le_of_lt h'⟩

theorem lexLe_ne_lt {a b : Pt} (h : lexLe a b) (hne : a ≠ b) : lexLt a b := by
  rcases lexLe_iff.mp h with rfl | h'
  · exact absurd rfl hne
  · exact h'

theorem cross_self_right (a b : Pt) : cross a b b = 0 := by
  unfold cross
  ring

theorem cross_self_mid (a b : Pt) : cross a b a = 0 := by
  unfold cross
  ring

theorem pairwise_lexLt_of_sorted_nodup {T : List Pt}
    (hs : List.Sorted lexLe T) (hn : T.Nodup) : List.Pairwise lexLt T := by
  have := List.Pairwise.and hs hn
  exact this.imp fun h => lexLe_ne_lt h.1 h.2

theorem strictTurns_cons_append (x : Pt) (l : List Pt) (hl : 2 ≤ l.length) :
    StrictTurns (x :: l) ↔
      0 < cross x (l.headD pt0) (l.tail.headD pt0) ∧ StrictTurns l := by
  rcases l with _ | ⟨y, l2⟩
  · simp at hl
  · rcases l2 with _ | ⟨z, t⟩
    · simp at hl
    · exact Iff.rfl

theorem strictTurns_snoc2 : ∀ (xs : List Pt) (a b c : Pt),
    StrictTurns (xs ++ [a, b]) → 0 < cross a b c → StrictTurns (xs ++ [a, b, c]) := by
  intro xs
  induction xs with
  | nil => intro a b c _ hc; exact ⟨hc, trivial⟩
  | cons x xs ih =>
    intro a b c h hc
    rw [List.cons_append] at h ⊢
    rw [strictTurns_cons_append x _ (by simp)] at h
    rw [strictTurns_cons_append x _ (by simp)]
    obtain ⟨hh, ht⟩ := h
    refine ⟨?_, ih a b c ht hc⟩
    have e1 : (xs ++ [a, b, c]).headD pt0 = (xs ++ [a, b]).headD pt0 := by
      cases xs <;> rfl
    have e2 : (xs ++ [a, b, c]).tail.headD pt0 = (xs ++ [a, b]).tail.headD pt0 := by
      rcases xs with _ | ⟨x1, xs1⟩
      · rfl
      · cases xs1 <;> rfl
    rw [e1, e2]
    exact hh

theorem revTurns_reverse : ∀ l, RevTurns l → StrictTurns l.reverse
  | [], _ => trivial
  | [_], _ => trivial
  | [a, b], _ => by
    rw [show ([a, b] : List Pt).reverse = [b, a] from rfl]
    trivial
  | c :: b :: a :: rest, h => by
    obtain ⟨hc, ht⟩ := h
    have ih := revTurns_reverse (b :: a :: rest) ht
    have e1 : (b :: a :: rest).reverse = rest.reverse ++ [a, b] := by simp
    have e2 : (c :: b :: a :: rest).reverse = rest.reverse ++ [a, b, c] := by simp
    rw [e1] at ih
    rw [e2]
    exact strictTurns_snoc2 _ a b c ih hc

theorem edgesSupport_cons (q x : Pt) (l : List Pt) (hl : 1 ≤ l.length) :
    EdgesSupport q (x :: l) ↔ 0 ≤ cross x (l.headD pt0) q ∧ EdgesSupport q l := by
  rcases l with _ | ⟨y, l2⟩
  · simp at hl
  · exact Iff.rfl

theorem edgesSupport_snoc2 : ∀ (xs : List Pt) (a b q : Pt),
    EdgesSupport q (xs ++ [a]) → 0 ≤ cross a b q → EdgesSupport q (xs ++ [a, b]) := by
  intro xs
  induction xs with
  | nil => intro a b q _ hc; exact ⟨hc, trivial⟩
  | cons x xs ih =>
    intro a b q h hc
    rw [List.cons_append] at h ⊢
    rw [edgesSupport_cons q x _ (by simp)] at h
    rw [edgesSupport_cons q x _ (by simp)]
    obtain ⟨hh, ht⟩ := h
    refine ⟨?_, ih a b q ht hc⟩
    have e1 : (xs ++ [a, b]).headD pt0 = (xs ++ [a]).headD pt0 := by
      cases xs <;> rfl
    rw [e1]
    exact hh

theorem revSupports_reverse (q : Pt) : ∀ l, RevSupports q l → EdgesSupport q l.reverse
  | [], _ => trivial
  | [_], _ => trivial
  | b :: a :: rest, h => by
    obtain ⟨hc, ht⟩ := h
    have ih := revSupports_reverse q (a :: rest) ht
    have e1 : (a :: rest).reverse = rest.reverse ++ [a] := by simp
    have e2 : (b :: a :: rest).reverse = rest.reverse ++ [a, b] := by simp
    rw [e1] at ih
    rw [e2]
    exact edgesSupport_snoc2 _ a b q ih hc

theorem lexLt_asymm {a b : Pt} (h : lexLt a b) : ¬ lexLt b a := by
  intro h'
  exact lexLt_irrefl a (lexLt_trans h h')

theorem revTurns_tail {x : Pt} {l : List Pt} (h : RevTurns (x :: l)) : RevTurns l := by
  rcases l with _ | ⟨y, _ | ⟨z, t⟩⟩
  · trivial
  · trivial
  · exact h.2

theorem revSupports_tail {q x : Pt} {l : List Pt} (h : RevSupports q (x :: l)) :
    RevSupports q l := by
  rcases l with _ | ⟨y, t⟩
  · trivial
  · exact h.2

theorem head_lex_min {T : List Pt} (hT : List.Pairwise lexLt T) {h : Pt}
    (hh : T.head? = some h) : ∀ q ∈ T, q = h ∨ lexLt h q := by
  cases T with
  | nil => simp at hh
  | cons t rest =>
    simp only [List.head?_cons, Option.some.injEq] at hh
    subst hh
    intro q hq
    rcases List.mem_cons.mp hq with rfl | hq
    · exact Or.inl rfl
    · exact Or.inr ((List.pairwise_cons.mp hT).1 q hq)

theorem mem_of_rev_sublist {ch T : List Pt} (hsub : ch.reverse.Sublist T) {x : Pt}
    (hx : x ∈ ch) : x ∈ T :=
  hsub.mem (List.mem_reverse.mpr hx)

theorem revSupports_of_stop (p : Pt) : ∀ (rest : List Pt) (a b : Pt),
    RevTurns (b :: a :: rest) → List.Pairwise (fun x y => lexLt y x) (b :: a :: rest) →
    (∀ x ∈ b :: a :: rest, lexLt x p) → 0 < cross a b p →
    RevSupports p (b :: a :: rest)
  | [], a, b, _, _, _, hstop => ⟨le_of_lt hstop, trivial⟩
  | c :: rest', a, b, hturns, hpw, hlt, hstop => by
    refine ⟨le_of_lt hstop, ?_⟩
    have hca : lexLt c a := by
      have := (List.pairwise_cons.mp (List.Pairwise.of_cons hpw)).1
      exact this c (List.mem_cons_self _ _)
    have hab : lexLt a b := by
      have := (List.pairwise_cons.mp hpw).1
      exact this a (List.mem_cons_self _ _)
    have hbp : lexLt b p := hlt b (List.mem_cons_self _ _)
    have h1 : 0 < cross c a b := hturns.1
    have hstep : 0 < cross c a p := wedge_lemma hca hab hbp h1 hstop
    exact revSupports_of_stop p rest' c a (revTurns_tail hturns) (List.Pairwise.of_cons hpw)
      (fun x hx => hlt x (List.mem_cons_of_mem _ hx)) hstep

theorem popWhile_step (T : List Pt) (p : Pt) (hT : List.Pairwise lexLt T)
    (hp : ∀ q ∈ T, lexLt q p) :
    ∀ ch, ch ≠ [] →
      ch.getLast? = T.head? →
      ch.reverse.Sublist T →
      List.Pairwise (fun a b => lexLt b a) ch →
      RevTurns ch →
      (∀ q ∈ T, RevSupports q ch) →
      (∀ q ∈ T, lexLe (ch.headD pt0) q → 0 ≤ cross (ch.headD pt0) p q) →
      (p :: popWhile p ch).getLast? = T.head? ∧
      (p :: popWhile p ch).reverse.Sublist (T ++ [p]) ∧
      List.Pairwise (fun a b => lexLt b a) (p :: popWhile p ch) ∧
      RevTurns (p :: popWhile p ch) ∧
      (∀ q ∈ T ++ [p], RevSupports q (p :: popWhile p ch))
  | [], hne, _, _, _, _, _, _ => absurd rfl hne
  | [a], _, hlast, hsub, _, _, _, ha5 => by
    have hpw : popWhile p [a] = [a] := rfl
    rw [hpw]
    have haT : a ∈ T := mem_of_rev_sublist hsub (List.mem_cons_self _ _)
    refine ⟨by simpa using hlast, ?_, ?_, trivial, ?_⟩
    · rw [show ([p, a] : List Pt).reverse = [a] ++ [p] from rfl]
      exact List.Sublist.append (by simpa using hsub) (List.Sublist.refl _)
    · refine List.pairwise_cons.mpr ⟨?_, List.pairwise_singleton _ _⟩
      intro x hx
      simp only [List.mem_cons, List.not_mem_nil, or_false] at hx
      rw [hx]
      exact hp a haT
    · intro q hq
      rcases List.mem_append.mp hq with hq | hq
      · refine ⟨?_, trivial⟩
        rcases head_lex_min hT (hlast.symm : T.head? = some a) q hq with heq | hlt
        · rw [heq]
          exact le_of_eq (cross_self_mid a p).symm
        · exact ha5 q hq (lexLe_iff.mpr (Or.inr hlt))
      · simp only [List.mem_cons, List.not_mem_nil, or_false] at hq
        rw [hq]
        exact ⟨le_of_eq (cross_self_right a p).symm, trivial⟩
  | b :: a :: rest, _, hlast, hsub, hpw, hturns, hsup, ha5 => by
    by_cases hpop : cross a b p ≤ 0
    · -- pop b and continue
      have heq : popWhile p (b :: a :: rest) = popWhile p (a :: rest) := by
        rw [popWhile, if_pos hpop]
      rw [heq]
      have hbT : b ∈ T := mem_of_rev_sublist hsub (List.mem_cons_self _ _)
      have hab : lexLt a b := (List.pairwise_cons.mp hpw).1 a (List.mem_cons_self _ _)
      refine popWhile_step T p hT hp (a :: rest) (by simp) ?_ ?_ ?_ ?_ ?_ ?_
      · rw [← hlast]
        rfl
      · have : (a :: rest).reverse.Sublist ((b :: a :: rest).reverse) := by
          rw [show (b :: a :: rest).reverse = (a :: rest).reverse ++ [b] by simp]
          exact List.sublist_append_left _ _
        exact this.trans hsub
      · exact List.Pairwise.of_cons hpw
      · exact revTurns_tail hturns
      · exact fun q hq => revSupports_tail (hsup q hq)
      · intro q hq hle
        simp only [List.headD_cons] at *
        rcases lexLe_iff.mp hle with heq | hlt
        · rw [← heq]
          exact le_of_eq (cross_self_mid a p).symm
        · exact rotate2_lemma hab (Or.inr hlt) (hp b hbT) (hsup q hq).1 hpop
    · -- stop: the chain is kept and p pushed
      have heq : popWhile p (b :: a :: rest) = b :: a :: rest := by
        rw [popWhile, if_neg hpop]
      rw [heq]
      have hstop : 0 < cross a b p := lt_of_not_le hpop
      have hbT : b ∈ T := mem_of_rev_sublist hsub (List.mem_cons_self _ _)
      have hab : lexLt a b := (List.pairwise_cons.mp hpw).1 a (List.mem_cons_self _ _)
      refine ⟨?_, ?_, ?_, ⟨hstop, hturns⟩, ?_⟩
      · rw [← hlast]
        rfl
      · rw [show (p :: b :: a :: rest).reverse = (b :: a :: rest).reverse ++ [p] by simp]
        exact List.Sublist.append hsub (List.Sublist.refl _)
      · exact List.pairwise_cons.mpr
          ⟨fun x hx => hp x (mem_of_rev_sublist hsub hx), hpw⟩
      · intro q hq
        rcases List.mem_append.mp hq with hq | hq
        · refine ⟨?_, hsup q hq⟩
          rcases lexLt_total b q with hbq | hbq | hqb
          · exact ha5 q hq (lexLe_iff.mpr (Or.inr hbq))
          · exact ha5 q hq (lexLe_iff.mpr (Or.inl hbq))
          · exact rotate3_lemma hab hqb (hp b hbT) (hsup q hq).1 hstop
        · simp only [List.mem_cons, List.not_mem_nil, or_false] at hq
          rw [hq]
          refine ⟨le_of_eq (cross_self_right b p).symm, ?_⟩
          exact revSupports_of_stop p rest a b hturns hpw
            (fun x hx => hp x (mem_of_rev_sublist hsub hx)) hstop

theorem getLast_lex_max {T : List Pt} (hT : List.Pairwise lexLt T) {m : Pt}
    (hm : T.getLast? = some m) : ∀ q ∈ T, q = m ∨ lexLt q m := by
  have h1 : T.reverse.head? = some m := by rw [List.head?_reverse]; exact hm
  have h2 : List.Pairwise (fun a b => lexLt b a) T.reverse :=
    List.pairwise_reverse.mpr hT
  cases hrev : T.reverse with
  | nil => rw [hrev] at h1; simp at h1
  | cons t rest =>
    rw [hrev] at h1 h2
    simp only [List.head?_cons, Option.some.injEq] at h1
    intro q hq
    have hq2 : q ∈ t :: rest := by
      rw [← hrev]
      simpa using hq
    rcases List.mem_cons.mp hq2 with heq | hq3
    · left
      rw [heq, ← h1]
    · right
      rw [← h1]
      exact (List.pairwise_cons.mp h2).1 q hq3

theorem head?_append_left {T : List Pt} (p : Pt) (hne : T ≠ []) :
    (T ++ [p]).head? = T.head? := by
  cases T with
  | nil => exact absurd rfl hne
  | cons t rest => rfl

theorem chainStep_inv (T : List Pt) (ch : List Pt) (p : Pt)
    (hT : List.Pairwise lexLt T) (hTne : T ≠ []) (hp : ∀ q ∈ T, lexLt q p)
    (hinv : RevChainInv T ch) : RevChainInv (T ++ [p]) (chainStep ch p) := by
  obtain ⟨hne, hlast, hhead, hsub, hpw, hturns, hsup⟩ := hinv
  have ha5 : ∀ q ∈ T, lexLe (ch.headD pt0) q → 0 ≤ cross (ch.headD pt0) p q := by
    intro q hq hle
    rcases hch : ch with _ | ⟨top, chr⟩
    · rw [hch] at hne
      exact absurd rfl hne
    · rw [hch] at hhead hle
      simp only [List.headD_cons] at *
      have hmax : T.getLast? = some top := by
        rw [← hhead]
        rfl
      rcases getLast_lex_max hT hmax q hq with heq | hlt
    
      · rw [heq]
        exact le_of_eq (cross_self_mid top p).symm
      · rcases lexLe_iff.mp hle with heq2 | hlt2
        · rw [← heq2]
          exact le_of_eq (cross_self_mid top p).symm
        · exact absurd hlt2 (lexLt_asymm hlt)
  obtain ⟨c1, c2, c3, c4, c5⟩ :=
    popWhile_step T p hT hp ch hne hlast hsub hpw hturns hsup ha5
  refine ⟨by simp [chainStep], ?_, ?_, c2, c3, c4, c5⟩
  · rw [show chainStep ch p = p :: popWhile p ch from rfl, c1, head?_append_left p hTne]
  · rw [show chainStep ch p = p :: popWhile p ch from rfl, List.getLast?_concat]
    rfl

theorem buildRev_aux : ∀ (rest T ch : List Pt),
    List.Pairwise lexLt (T ++ rest) → T ≠ [] → RevChainInv T ch →
    RevChainInv (T ++ rest) (rest.foldl chainStep ch) := by
  intro rest
  induction rest with
  | nil => intro T ch _ _ hinv; simpa using hinv
  | cons p rest2 ih =>
    intro T ch hpw hTne hinv
    have hsplit : T ++ p :: rest2 = (T ++ [p]) ++ rest2 := by simp
    have hpw2 : List.Pairwise lexLt ((T ++ [p]) ++ rest2) := by
      rw [← hsplit]
      exact hpw
    have hp : ∀ q ∈ T, lexLt q p := by
      rw [List.pairwise_append] at hpw
      exact fun q hq => hpw.2.2 q hq p (List.mem_cons_self _ _)
    have hT : List.Pairwise lexLt T := (List.pairwise_append.mp hpw).1
    have hstep := chainStep_inv T ch p hT hTne hp hinv
    have := ih (T ++ [p]) (chainStep ch p) hpw2 (by simp) hstep
    rw [hsplit]
    simpa using this

theorem buildRev_inv (T : List Pt) (hT : List.Pairwise lexLt T) (hne : T ≠ []) :
    RevChainInv T (buildRev T) := by
  cases T with
  | nil => exact absurd rfl hne
  | cons t rest =>
    have hbase : RevChainInv [t] [t] := by
      refine ⟨by simp, rfl, rfl, by simp, List.pairwise_singleton _ _, trivial, ?_⟩
      intro q hq
      trivial
    have := buildRev_aux rest [t] [t] (by simpa using hT) (by simp) hbase
    simpa [buildRev] using this

theorem lexLe_negPt {a b : Pt} : lexLe (negPt b) (negPt a) ↔ lexLe a b := by
  unfold lexLe negPt
  dsimp only
  constructor <;>
    (rintro (h | ⟨h, h'⟩)
     · exact Or.inl (by linarith)
     · exact Or.inr ⟨by linarith, by linarith⟩)

theorem negPt_negPt (p : Pt) : negPt (negPt p) = p := by
  cases p
  simp [negPt]

theorem sortPts_sorted (pts : List Pt) : List.Sorted lexLe (sortPts pts) :=
  List.sorted_insertionSort lexLe pts

theorem sortPts_perm (pts : List Pt) : (sortPts pts).Perm pts :=
  List.perm_insertionSort lexLe pts

theorem sortPts_pairwise (pts : List Pt) (h : pts.Nodup) :
    List.Pairwise lexLt (sortPts pts) :=
  pairwise_lexLt_of_sorted_nodup (sortPts_sorted pts)
    ((sortPts_perm pts).nodup_iff.mpr h)

theorem popWhile_negPt (p : Pt) : ∀ l, popWhile (negPt p) (l.map negPt) = (popWhile p l).map negPt
  | [] => rfl
  | [a] => rfl
  | b :: a :: rest => by
    simp only [List.map_cons, popWhile, cross_negPt]
    split_ifs with h
    · exact popWhile_negPt p (a :: rest)
    · simp

theorem foldl_chainStep_negPt : ∀ (l ch : List Pt),
    (l.map negPt).foldl chainStep (ch.map negPt) = (l.foldl chainStep ch).map negPt := by
  intro l
  induction l with
  | nil => intro ch; simp
  | cons p rest ih =>
    intro ch
    simp only [List.map_cons, List.foldl_cons]
    have hstep : chainStep (ch.map negPt) (negPt p) = (chainStep ch p).map negPt := by
      simp only [chainStep, popWhile_negPt, List.map_cons]
    rw [hstep]
    exact ih (chainStep ch p)

theorem buildRev_negPt (l : List Pt) : buildRev (l.map negPt) = (buildRev l).map negPt := by
  unfold buildRev
  have := foldl_chainStep_negPt l []
  simpa using this

instance : IsAntisymm Pt (fun a b => lexLe b a) :=
  ⟨fun _ _ h1 h2 => antisymm h2 h1⟩

theorem sortPts_reverse_eq (pts : List Pt) :
    (sortPts pts).reverse = (sortPts (pts.map negPt)).map negPt := by
  have hmm : (pts.map negPt).map negPt = pts := by
    rw [List.map_map]
    rw [show (negPt ∘ negPt) = id from funext fun x => negPt_negPt x]
    exact List.map_id pts
  have hperm : ((sortPts pts).reverse).Perm ((sortPts (pts.map negPt)).map negPt) := by
    refine ((List.reverse_perm _).trans (sortPts_perm pts)).trans ?_
    refine (List.Perm.symm ?_)
    refine ((sortPts_perm (pts.map negPt)).map negPt).trans ?_
    rw [hmm]
  have hs1 : List.Pairwise (fun a b => lexLe b a) (sortPts pts).reverse := by
    rw [List.pairwise_reverse]
    exact sortPts_sorted pts
  have hs2 : List.Pairwise (fun a b => lexLe b a) ((sortPts (pts.map negPt)).map negPt) := by
    rw [List.pairwise_map]
    exact (sortPts_sorted (pts.map negPt)).imp fun {x y} h => lexLe_negPt.mpr h
  exact List.eq_of_perm_of_sorted hperm hs1 hs2

theorem upperChain_eq_neg (pts : List Pt) :
    upperChain pts = (lowerChain (pts.map negPt)).map negPt := by
  unfold upperChain lowerChain
  rw [sortPts_reverse_eq, buildRev_negPt, List.map_reverse]

theorem strictTurns_map_negPt : ∀ l : List Pt, StrictTurns (l.map negPt) ↔ StrictTurns l
  | [] => Iff.rfl
  | [_] => Iff.rfl
  | [_, _] => Iff.rfl
  | a :: b :: c :: rest => by
    simp only [List.map_cons, StrictTurns, cross_negPt]
    exact and_congr Iff.rfl (strictTurns_map_negPt (b :: c :: rest))

theorem edgesSupport_map_negPt (q : Pt) :
    ∀ l : List Pt, EdgesSupport (negPt q) (l.map negPt) ↔ EdgesSupport q l
  | [] => Iff.rfl
  | [_] => Iff.rfl
  | a :: b :: rest => by
    simp only [List.map_cons, EdgesSupport, cross_negPt]
    exact and_congr Iff.rfl (edgesSupport_map_negPt q (b :: rest))

theorem sortPts_ne_nil {pts : List Pt} (hne : pts ≠ []) : sortPts pts ≠ [] := by
  intro h
  have := (sortPts_perm pts).length_eq
  rw [h] at this
  exact hne (List.length_eq_zero.mp this.symm)

theorem lowerChain_facts (pts : List Pt) (h : pts.Nodup) (hne : pts ≠ []) :
    lowerChain pts ≠ [] ∧
    (lowerChain pts).head? = (sortPts pts).head? ∧
    (lowerChain pts).getLast? = (sortPts pts).getLast? ∧
    (lowerChain pts).Sublist (sortPts pts) ∧
    List.Pairwise lexLt (lowerChain pts) ∧
    StrictTurns (lowerChain pts) ∧
    ∀ q ∈ sortPts pts, EdgesSupport q (lowerChain pts) := by
  obtain ⟨c1, c2, c3, c4, c5, c6, c7⟩ :=
    buildRev_inv (sortPts pts) (sortPts_pairwise pts h) (sortPts_ne_nil hne)
  unfold lowerChain
  refine ⟨by simpa using c1, ?_, ?_, c4, ?_, revTurns_reverse _ c6, ?_⟩
  · rw [List.head?_reverse]; exact c2
  · rw [List.getLast?_reverse]; exact c3
  · rw [List.pairwise_reverse]; exact c5
  · intro q hq
    exact revSupports_reverse q _ (c7 q hq)

theorem negPt_injective : Function.Injective negPt := by
  intro a b h
  rw [← negPt_negPt a, h, negPt_negPt]

theorem map_negPt_negPt (l : List Pt) : (l.map negPt).map negPt = l := by
  rw [List.map_map]
  rw [show (negPt ∘ negPt) = id from funext fun x => negPt_negPt x]
  exact List.map_id l

theorem sortPts_map_negPt (pts : List Pt) :
    sortPts (pts.map negPt) = ((sortPts pts).reverse).map negPt := by
  rw [sortPts_reverse_eq, map_negPt_negPt]

theorem optMap_negPt_negPt (o : Option Pt) : (o.map negPt).map negPt = o := by
  cases o with
  | none => rfl
  | some p => simp [negPt_negPt]

theorem allCollinear_map_negPt {pts : List Pt} :
    allCollinear (pts.map negPt) ↔ allCollinear pts := by
  unfold allCollinear
  constructor
  · intro h a ha b hb c hc
    have := h (negPt a) (List.mem_map_of_mem _ ha) (negPt b) (List.mem_map_of_mem _ hb)
      (negPt c) (List.mem_map_of_mem _ hc)
    rwa [cross_negPt] at this
  · intro h a ha b hb c hc
    obtain ⟨a', ha', rfl⟩ := List.mem_map.mp ha
    obtain ⟨b', hb', rfl⟩ := List.mem_map.mp hb
    obtain ⟨c', hc', rfl⟩ := List.mem_map.mp hc
    rw [cross_negPt]
    exact h a' ha' b' hb' c' hc'

theorem upperChain_facts (pts : List Pt) (h : pts.Nodup) (hne : pts ≠ []) :
    upperChain pts ≠ [] ∧
    (upperChain pts).head? = (sortPts pts).getLast? ∧
    (upperChain pts).getLast? = (sortPts pts).head? ∧
    (upperChain pts).Sublist (sortPts pts).reverse ∧
    List.Pairwise (fun a b => lexLt b a) (upperChain pts) ∧
    StrictTurns (upperChain pts) ∧
    ∀ q ∈ sortPts pts, EdgesSupport q (upperChain pts) := by
  have hnd' : (pts.map negPt).Nodup := h.map negPt_injective
  have hne' : pts.map negPt ≠ [] := by
    simpa [List.map_eq_nil_iff] using hne
  obtain ⟨d1, d2, d3, d4, d5, d6, d7⟩ := lowerChain_facts (pts.map negPt) hnd' hne'
  rw [upperChain_eq_neg]
  refine ⟨by simpa [List.map_eq_nil_iff] using d1, ?_, ?_, ?_, ?_, ?_, ?_⟩
  · rw [List.head?_map, d2, sortPts_map_negPt, List.head?_map, List.head?_reverse,
      optMap_negPt_negPt]
  · rw [List.getLast?_map, d3, sortPts_map_negPt, List.getLast?_map, List.getLast?_reverse,
      optMap_negPt_negPt]
  · have := d4.map negPt
    rwa [sortPts_map_negPt, map_negPt_negPt] at this
  · rw [List.pairwise_map]
    exact d5.imp fun {x y} hxy => lexLt_negPt.mpr hxy
  · exact (strictTurns_map_negPt _).mpr d6
  · intro q hq
    have hq' : negPt q ∈ sortPts (pts.map negPt) := by
      rw [sortPts_map_negPt]
      exact List.mem_map_of_mem _ (List.mem_reverse.mpr hq)
    have := d7 (negPt q) hq'
    have h2 := (edgesSupport_map_negPt (negPt q) (lowerChain (pts.map negPt)))
    rw [negPt_negPt] at h2
    exact h2.mpr this

theorem seam_M (pts : List Pt) (hnd : pts.Nodup) (h3 : 3 ≤ pts.length)
    (hnc : ¬ allCollinear pts) :
    0 < cross ((buildRev (sortPts pts)).tail.headD pt0) ((sortPts pts).getLastD pt0)
      ((upperChain pts).tail.headD pt0) := by
  have hne : pts ≠ [] := by
    intro hn
    rw [hn] at h3
    simp at h3
  obtain ⟨c1, c2, c3, c4, c5, c6, c7⟩ :=
    buildRev_inv (sortPts pts) (sortPts_pairwise pts hnd) (sortPts_ne_nil hne)
  obtain ⟨u1, u2, u3, u4, u5, u6, u7⟩ := upperChain_facts pts hnd hne
  have hSlen : 3 ≤ (sortPts pts).length := by
    rw [(sortPts_perm pts).length_eq]
    exact h3
  -- the lex-least and lex-greatest inputs differ
  have hmnM : (sortPts pts).head? ≠ (sortPts pts).getLast? := by
    obtain ⟨s0, s1, rest2, hS⟩ : ∃ s0 s1 r, sortPts pts = s0 :: s1 :: r := by
      rcases h' : sortPts pts with _ | ⟨a, _ | ⟨b, r⟩⟩
      · rw [h'] at hSlen
        simp at hSlen
      · rw [h'] at hSlen
        simp at hSlen
      · exact ⟨a, b, r, rfl⟩
    have hpw := sortPts_pairwise pts hnd
    rw [hS] at hpw ⊢
    have hlt : lexLt s0 ((s1 :: rest2).getLast (by simp)) :=
      (List.pairwise_cons.mp hpw).1 _ (List.getLast_mem _)
    simp only [List.head?_cons, List.getLast?_cons_cons]
    rw [List.getLast?_eq_getLast _ (by simp)]
    intro hEq
    rw [Option.some.injEq] at hEq
    exact lexLt_ne hlt hEq
  -- the reversed lower chain has at least two points: M then Lp
  obtain ⟨M, Lp, R2, hR⟩ : ∃ M Lp R2, buildRev (sortPts pts) = M :: Lp :: R2 := by
    rcases hRc : buildRev (sortPts pts) with _ | ⟨x, _ | ⟨y, rest⟩⟩
    · exact absurd hRc c1
    · rw [hRc] at c2 c3
      simp only [List.getLast?_singleton, List.head?_cons] at c2 c3
      exact absurd (c2.symm.trans c3) hmnM
    · exact ⟨x, y, rest, rfl⟩
  -- the upper chain has at least two points: M then U1
  obtain ⟨M', U1, W2, hU⟩ : ∃ M' U1 W2, upperChain pts = M' :: U1 :: W2 := by
    rcases hUc : upperChain pts with _ | ⟨x, _ | ⟨y, rest⟩⟩
    · exact absurd hUc u1
    · rw [hUc] at u2 u3
      simp only [List.getLast?_singleton, List.head?_cons] at u2 u3
      exact absurd (u3.symm.trans u2) hmnM
    · exact ⟨x, y, rest, rfl⟩
  -- both chains start at the lex-greatest point M
  have hM' : M' = M := by
    have e1 : (upperChain pts).head? = some M' := by rw [hU]; rfl
    have e2 : (buildRev (sortPts pts)).head? = some M := by rw [hR]; rfl
    rw [u2] at e1
    rw [c3] at e2
    rw [e1] at e2
    exact (Option.some.injEq _ _ ▸ e2)
  rw [hR, hU]
  have hMlast : (sortPts pts).getLastD pt0 = M := by
    have e2 : (buildRev (sortPts pts)).head? = some M := by rw [hR]; rfl
    rw [c3] at e2
    rw [List.getLastD_eq_getLast?, e2]
    rfl
  simp only [List.tail_cons, List.headD_cons, hMlast, hM']
  -- support of the top lower edge (Lp, M) at U1
  have hU1S : U1 ∈ sortPts pts := by
    have : U1 ∈ upperChain pts := by rw [hU]; exact List.mem_cons_of_mem _ (List.mem_cons_self _ _)
    exact List.mem_reverse.mp (u4.mem this)
  have hsupp : 0 ≤ cross Lp M U1 := by
    have := c7 U1 hU1S
    rw [hR] at this
    exact this.1
  rcases lt_or_eq_of_le hsupp with hpos | hzero
  · exact hpos
  exfalso
  -- degenerate case: U1 on the line through Lp and M
  have hLpM : lexLt Lp M := by
    have := c5
    rw [hR] at this
    exact (List.pairwise_cons.mp this).1 Lp (List.mem_cons_self _ _)
  have hU1M : lexLt U1 M := by
    have := u5
    rw [hU, hM'] at this
    exact (List.pairwise_cons.mp this).1 U1 (List.mem_cons_self _ _)
  obtain ⟨s, hsx, hsy⟩ := cross_collinear_param hzero.symm (lexLt_ne hLpM)
  set t : ℚ := s - 1 with ht
  have hU1eq : U1 = ⟨M.x + t * (M.x - Lp.x), M.y + t * (M.y - Lp.y)⟩ := by
    have hx : U1.x = M.x + t * (M.x - Lp.x) := by rw [ht]; linarith
    have hy : U1.y = M.y + t * (M.y - Lp.y) := by rw [ht]; linarith
    cases U1
    simp only [Pt.mk.injEq]
    exact ⟨hx, hy⟩
  rcases lt_trichotomy t 0 with htneg | htzero | htpos
  · -- t < 0: every input point is on the line (Lp, M): all collinear
    have hall : ∀ q ∈ sortPts pts, cross Lp M q = 0 := by
      intro q hq
      have hlow : 0 ≤ cross Lp M q := by
        have := c7 q hq
        rw [hR] at this
        exact this.1
      have hup : 0 ≤ cross M U1 q := by
        have := u7 q hq
        rw [hU, hM'] at this
        exact this.1
      have hray : cross M U1 q = t * cross Lp M q := by
        rw [hU1eq]
        exact cross_point_on_ray Lp M q t
      nlinarith
    apply hnc
    intro a ha b hb c hc
    have hmem : ∀ x ∈ pts, x ∈ sortPts pts := fun x hx =>
      (sortPts_perm pts).mem_iff.mpr hx
    exact collinear_line (lexLt_ne hLpM) (hall a (hmem a ha)) (hall b (hmem b hb))
      (hall c (hmem c hc))
  · -- t = 0: U1 = M, contradicting strict descent of the upper chain
    rw [htzero] at hU1eq
    simp only [zero_mul, add_zero] at hU1eq
    have : U1 = M := by
      rw [hU1eq]
    exact lexLt_irrefl M (this ▸ hU1M)
  · -- t > 0: U1 lies lex-beyond M, contradicting U1 <lex M
    have := lexLt_push hLpM t htpos
    rw [← hU1eq] at this
    exact lexLt_asymm hU1M this

theorem headD_map_negPt (l : List Pt) : (l.map negPt).headD pt0 = negPt (l.headD pt0) := by
  cases l with
  | nil => simp [pt0, negPt]
  | cons a l' => rfl

theorem getLastD_map_negPt (l : List Pt) :
    (l.map negPt).getLastD pt0 = negPt (l.getLastD pt0) := by
  rw [List.getLastD_eq_getLast?, List.getLastD_eq_getLast?, List.getLast?_map]
  cases h : l.getLast? with
  | none => simp [pt0, negPt]
  | some p => rfl

theorem getLastD_reverse_pt (l : List Pt) : (l.reverse).getLastD pt0 = l.headD pt0 := by
  cases l with
  | nil => rfl
  | cons a l' =>
    rw [List.getLastD_eq_getLast?, List.getLast?_reverse]
    rfl

theorem seam_mn (pts : List Pt) (hnd : pts.Nodup) (h3 : 3 ≤ pts.length)
    (hnc : ¬ allCollinear pts) :
    0 < cross ((upperChain pts).reverse.tail.headD pt0) ((sortPts pts).headD pt0)
      ((lowerChain pts).tail.headD pt0) := by
  have hnd' : (pts.map negPt).Nodup := hnd.map negPt_injective
  have h3' : 3 ≤ (pts.map negPt).length := by
    rw [List.length_map]
    exact h3
  have hnc' : ¬ allCollinear (pts.map negPt) := fun hc =>
    hnc (allCollinear_map_negPt.mp hc)
  have hseam := seam_M (pts.map negPt) hnd' h3' hnc'
  have hA : buildRev (sortPts (pts.map negPt)) = ((upperChain pts).reverse).map negPt := by
    rw [sortPts_map_negPt, buildRev_negPt]
    unfold upperChain
    rw [List.reverse_reverse]
  have hC : upperChain (pts.map negPt) = (lowerChain pts).map negPt := by
    rw [upperChain_eq_neg, map_negPt_negPt]
  rw [hA, hC, sortPts_map_negPt, ← List.map_tail, ← List.map_tail, headD_map_negPt,
    headD_map_negPt, getLastD_map_negPt, getLastD_reverse_pt, cross_negPt] at hseam
  exact hseam

theorem strictTurns_glue : ∀ (A B : List Pt),
    StrictTurns (A ++ B.take 2) → StrictTurns B → StrictTurns (A ++ B)
  | [], _, _, hB => hB
  | [a], B, h1, hB => by
    cases B with
    | nil => trivial
    | cons b B' =>
      cases B' with
      | nil => trivial
      | cons c B'' =>
        simp only [List.take, List.singleton_append] at h1
        exact ⟨h1.1, hB⟩
  | a :: a' :: A', B, h1, hB => by
    cases A' with
    | nil =>
      cases B with
      | nil => trivial
      | cons b B' =>
        simp only [List.cons_append, List.nil_append] at h1 ⊢
        refine ⟨?_, strictTurns_glue [a'] (b :: B') h1.2 hB⟩
        cases B' with
        | nil => exact h1.1
        | cons c B'' => exact h1.1
    | cons a'' A'' =>
      simp only [List.cons_append] at h1 ⊢
      exact ⟨h1.1, strictTurns_glue (a' :: a'' :: A'') B h1.2 hB⟩

theorem cross_swap12 (a b q : Pt) : cross b a q = - cross a b q := by
  unfold cross
  ring

theorem exists_snoc2 (l : List Pt) (h : 2 ≤ l.length) : ∃ xs a b, l = xs ++ [a, b] := by
  rcases hrev : l.reverse with _ | ⟨x, _ | ⟨y, r⟩⟩
  · rw [List.reverse_eq_nil_iff] at hrev
    rw [hrev] at h
    simp at h
  · have : l = [x] := by
      have := congrArg List.reverse hrev
      simpa using this
    rw [this] at h
    simp at h
  · refine ⟨r.reverse, y, x, ?_⟩
    have := congrArg List.reverse hrev
    simpa using this

theorem hull_strict (pts : List Pt) (hnd : pts.Nodup) (h3 : 3 ≤ pts.length)
    (hnc : ¬ allCollinear pts) :
    3 ≤ (convex_hull pts).length ∧
    StrictTurns (convex_hull pts ++ (convex_hull pts).take 2) := by
  have hne : pts ≠ [] := by
    intro hn
    rw [hn] at h3
    simp at h3
  obtain ⟨l1, l2, l3, l4, l5, l6, l7⟩ := lowerChain_facts pts hnd hne
  obtain ⟨u1, u2, u3, u4, u5, u6, u7⟩ := upperChain_facts pts hnd hne
  obtain ⟨c1, c2, c3, c4, c5, c6, c7⟩ :=
    buildRev_inv (sortPts pts) (sortPts_pairwise pts hnd) (sortPts_ne_nil hne)
  have hSlen : 3 ≤ (sortPts pts).length := by
    rw [(sortPts_perm pts).length_eq]
    exact h3
  obtain ⟨s0, s1, srest, hS⟩ : ∃ s0 s1 r, sortPts pts = s0 :: s1 :: r := by
    rcases h' : sortPts pts with _ | ⟨a, _ | ⟨b, r⟩⟩
    · rw [h'] at hSlen
      simp at hSlen
    · rw [h'] at hSlen
      simp at hSlen
    · exact ⟨a, b, r, rfl⟩
  have hShead : (sortPts pts).head? = some s0 := by
    rw [hS]
    rfl
  have hmnM : (sortPts pts).head? ≠ (sortPts pts).getLast? := by
    have hpw := sortPts_pairwise pts hnd
    rw [hS] at hpw ⊢
    have hlt : lexLt s0 ((s1 :: srest).getLast (by simp)) :=
      (List.pairwise_cons.mp hpw).1 _ (List.getLast_mem _)
    simp only [List.head?_cons, List.getLast?_cons_cons]
    rw [List.getLast?_eq_getLast _ (by simp)]
    intro hEq
    rw [Option.some.injEq] at hEq
    exact lexLt_ne hlt hEq
  obtain ⟨M, Lp, R2, hR⟩ : ∃ M Lp R2, buildRev (sortPts pts) = M :: Lp :: R2 := by
    rcases hRc : buildRev (sortPts pts) with _ | ⟨x, _ | ⟨y, rest⟩⟩
    · exact absurd hRc c1
    · rw [hRc] at c2 c3
      simp only [List.getLast?_singleton, List.head?_cons] at c2 c3
      exact absurd (c2.symm.trans c3) hmnM
    · exact ⟨x, y, rest, rfl⟩
  have hMlast : (sortPts pts).getLast? = some M := by
    rw [← c3, hR]
    rfl
  have hs0M : s0 ≠ M := by
    rw [hShead, hMlast] at hmnM
    intro hEq
    exact hmnM (by rw [hEq])
  have hL : lowerChain pts = R2.reverse ++ [Lp, M] := by
    unfold lowerChain
    rw [hR]
    simp
  -- lower chain starts at s0 and has at least two vertices
  have hLhead : (lowerChain pts).head? = some s0 := by
    rw [l2, hShead]
  have hLlast : (lowerChain pts).getLast? = some M := by
    rw [l3, hMlast]
  obtain ⟨L1, Ltl2, hLc⟩ : ∃ L1 r, lowerChain pts = s0 :: L1 :: r := by
    rcases hLx : lowerChain pts with _ | ⟨x, _ | ⟨y, r⟩⟩
    · exact absurd hLx l1
    · rw [hLx] at hLhead hLlast
      simp only [List.head?_cons, List.getLast?_singleton, Option.some.injEq] at hLhead hLlast
      exact absurd (hLhead.symm.trans hLlast) hs0M
    · rw [hLx] at hLhead
      simp only [List.head?_cons, Option.some.injEq] at hLhead
      exact ⟨y, r, by rw [hLhead]⟩
  -- upper chain starts at M and has at least two vertices
  have hUhead : (upperChain pts).head? = some M := by
    rw [u2, hMlast]
  have hUlast : (upperChain pts).getLast? = some s0 := by
    rw [u3, hShead]
  obtain ⟨U1, Utl2, hUc⟩ : ∃ U1 r, upperChain pts = M :: U1 :: r := by
    rcases hUx : upperChain pts with _ | ⟨x, _ | ⟨y, r⟩⟩
    · exact absurd hUx u1
    · rw [hUx] at hUhead hUlast
      simp only [List.head?_cons, List.getLast?_singleton, Option.some.injEq] at hUhead hUlast
      exact absurd (hUlast.symm.trans hUhead) hs0M
    · rw [hUx] at hUhead
      simp only [List.head?_cons, Option.some.injEq] at hUhead
      exact ⟨y, r, by rw [hUhead]⟩
  obtain ⟨Uxs, Up, ul, hU2⟩ : ∃ xs a b, upperChain pts = xs ++ [a, b] := by
    apply exists_snoc2
    rw [hUc]
    simp
  have hul : ul = s0 := by
    rw [hU2] at hUlast
    simp only [List.getLast?_append, List.getLast?_cons_cons, List.getLast?_singleton,
      Option.or_some, Option.some.injEq] at hUlast
    simpa using hUlast
  rw [hul] at hU2
  -- the two seam turns
  have hseamM : 0 < cross Lp M U1 := by
    have h := seam_M pts hnd h3 hnc
    rw [hR, hUc] at h
    simp only [List.tail_cons, List.headD_cons] at h
    rwa [List.getLastD_eq_getLast?, hMlast] at h
  have hseammn : 0 < cross Up s0 L1 := by
    have h := seam_mn pts hnd h3 hnc
    rw [hU2, hLc, hS] at h
    simpa [List.reverse_append] using h
  -- the two chains cannot both be single edges
  have hpos : 1 ≤ Ltl2.length + Utl2.length := by
    by_contra hcon
    push_neg at hcon
    have hLtl2 : Ltl2 = [] := by
      cases Ltl2 with
      | nil => rfl
      | cons a r => simp at hcon
    have hUtl2 : Utl2 = [] := by
      cases Utl2 with
      | nil => rfl
      | cons a r =>
        rw [hLtl2] at hcon
        simp at hcon
    rw [hLtl2] at hLc
    rw [hUtl2] at hUc
    have hL1M : L1 = M := by
      rw [hLc] at hLlast
      simpa using hLlast
    have hU1s0 : U1 = s0 := by
      rw [hUc] at hUlast
      simpa using hUlast
    have hall : ∀ q ∈ sortPts pts, cross s0 M q = 0 := by
      intro q hq
      have hlow := l7 q hq
      rw [hLc, hL1M] at hlow
      have hlow' : 0 ≤ cross s0 M q := hlow.1
      have hup := u7 q hq
      rw [hUc, hU1s0] at hup
      have hup' : 0 ≤ cross M s0 q := hup.1
      rw [cross_swap12] at hup'
      linarith
    apply hnc
    intro a ha b hb c hc
    have hmem : ∀ x ∈ pts, x ∈ sortPts pts := fun x hx =>
      (sortPts_perm pts).mem_iff.mpr hx
    exact collinear_line hs0M (hall a (hmem a ha)) (hall b (hmem b hb))
      (hall c (hmem c hc))
  -- the hull and its first two vertices
  have hout : convex_hull pts = (lowerChain pts).dropLast ++ (upperChain pts).dropLast := by
    unfold convex_hull
    rw [if_neg (by omega)]
  have hLdrop : (lowerChain pts).dropLast = R2.reverse ++ [Lp] := by
    rw [hL, show R2.reverse ++ [Lp, M] = (R2.reverse ++ [Lp]) ++ [M] by simp,
      List.dropLast_concat]
  have hUdrop : (upperChain pts).dropLast = Uxs ++ [Up] := by
    rw [hU2, show Uxs ++ [Up, s0] = (Uxs ++ [Up]) ++ [s0] by simp, List.dropLast_concat]
  have htake : (convex_hull pts).take 2 = [s0, L1] := by
    rw [hout]
    cases Ltl2 with
    | nil =>
      have hL1M : L1 = M := by
        rw [hLc] at hLlast
        simpa using hLlast
      rw [hLc, hUc]
      simp [hL1M]
    | cons c rest =>
      rw [hLc]
      simp
  -- assemble the closed cycle
  have hUL1 : StrictTurns (upperChain pts ++ [L1]) := by
    have hglue := strictTurns_glue Uxs [Up, s0, L1]
      (by
        have : Uxs ++ [Up, s0, L1].take 2 = upperChain pts := by
          rw [hU2]
          rfl
        rw [this]
        exact u6)
      ⟨hseammn, trivial⟩
    have hlist : Uxs ++ [Up, s0, L1] = upperChain pts ++ [L1] := by
      rw [hU2]
      simp
    rwa [hlist] at hglue
  have hLpU : StrictTurns (Lp :: (upperChain pts ++ [L1])) := by
    have hglue := strictTurns_glue [Lp] (upperChain pts ++ [L1])
      (by
        have : [Lp] ++ (upperChain pts ++ [L1]).take 2 = [Lp, M, U1] := by
          rw [hUc]
          rfl
        rw [this]
        exact ⟨hseamM, trivial⟩)
      hUL1
    simpa using hglue
  have hfull : StrictTurns (R2.reverse ++ (Lp :: (upperChain pts ++ [L1]))) := by
    apply strictTurns_glue
    · have : R2.reverse ++ (Lp :: (upperChain pts ++ [L1])).take 2 = lowerChain pts := by
        rw [hUc, hL]
        rfl
      rw [this]
      exact l6
    · exact hLpU
  have hcyc : convex_hull pts ++ (convex_hull pts).take 2 =
      R2.reverse ++ (Lp :: (upperChain pts ++ [L1])) := by
    rw [htake, hout, hLdrop, hUdrop, hU2]
    simp
  constructor
  · rw [hout, hLdrop, hUdrop]
    have hlen1 : R2.length = Ltl2.length := by
      have := congrArg List.length hL
      rw [hLc] at this
      simp at this
      omega
    have hlen2 : Uxs.length = Utl2.length := by
      have := congrArg List.length hU2
      rw [hUc] at this
      simp at this
      omega
    simp only [List.length_append, List.length_reverse, List.length_cons, List.length_nil]
    omega
  · rw [hcyc]
    exact hfull

/-- C9: for at least 3 distinct, not-all-collinear input points, `convex_hull`
returns at least 3 vertices in counter-clockwise order with a strictly
positive cross product at every cyclically consecutive vertex triple
(collinear boundary points are eliminated, so the output is strictly
convex); for inputs of fewer than 3 points the input list is returned
unchanged. -/
theorem claim9_strict_convexity (pts : List Pt) :
    (pts.length < 3 → convex_hull pts = pts) ∧
    (pts.Nodup → 3 ≤ pts.length → ¬ allCollinear pts →
      3 ≤ (convex_hull pts).length ∧
      StrictTurns (convex_hull pts ++ (convex_hull pts).take 2)) := by
  constructor
  · intro h
    unfold convex_hull
    rw [if_pos h]
  · intro h1 h2 h3
    exact hull_strict pts h1 h2 h3

theorem claim9_witness :
    ([⟨0,0⟩, ⟨1,0⟩, ⟨0,1⟩] : List Pt).Nodup ∧
    3 ≤ ([⟨0,0⟩, ⟨1,0⟩, ⟨0,1⟩] : List Pt).length ∧
    ¬ allCollinear [⟨0,0⟩, ⟨1,0⟩, ⟨0,1⟩] ∧
    (3 ≤ (convex_hull [⟨0,0⟩, ⟨1,0⟩, ⟨0,1⟩]).length ∧
      StrictTurns (convex_hull [⟨0,0⟩, ⟨1,0⟩, ⟨0,1⟩] ++
        (convex_hull [⟨0,0⟩, ⟨1,0⟩, ⟨0,1⟩]).take 2)) := by
  have hnd : ([⟨0,0⟩, ⟨1,0⟩, ⟨0,1⟩] : List Pt).Nodup := by
    norm_num [List.nodup_cons, Pt.mk.injEq]
  have h3 : 3 ≤ ([⟨0,0⟩, ⟨1,0⟩, ⟨0,1⟩] : List Pt).length := by norm_num
  have hnc : ¬ allCollinear [⟨0,0⟩, ⟨1,0⟩, ⟨0,1⟩] := by
    intro h
    have := h ⟨0,0⟩ (by simp) ⟨1,0⟩ (by simp) ⟨0,1⟩ (by simp)
    norm_num [cross] at this
  exact ⟨hnd, h3, hnc, (claim9_strict_convexity [⟨0,0⟩, ⟨1,0⟩, ⟨0,1⟩]).2 hnd h3 hnc⟩

theorem strictTurns_tail {x : Pt} {l : List Pt} (h : StrictTurns (x :: l)) :
    StrictTurns l := by
  rcases l with _ | ⟨y, _ | ⟨z, t⟩⟩
  · trivial
  · trivial
  · exact h.2

theorem edgesSupport_tail {q x : Pt} {l : List Pt} (h : EdgesSupport q (x :: l)) :
    EdgesSupport q l := by
  rcases l with _ | ⟨y, t⟩
  · trivial
  · exact h.2

theorem strictTurns_triple : ∀ (xs : List Pt) (a b c : Pt) (ys : List Pt),
    StrictTurns (xs ++ a :: b :: c :: ys) → 0 < cross a b c
  | [], _a, _b, _c, _ys, h => h.1
  | _ :: xs, a, b, c, ys, h =>
    strictTurns_triple xs a b c ys (strictTurns_tail h)

theorem edgesSupport_pair : ∀ (xs : List Pt) (a b : Pt) (ys : List Pt) (q : Pt),
    EdgesSupport q (xs ++ a :: b :: ys) → 0 ≤ cross a b q
  | [], _a, _b, _ys, _q, h => h.1
  | _ :: xs, a, b, ys, q, h =>
    edgesSupport_pair xs a b ys q (edgesSupport_tail h)

theorem lexLt_pull {A B : Pt} (h : lexLt A B) (t : ℚ) (ht : t < 0) :
    lexLt ⟨B.x + t * (B.x - A.x), B.y + t * (B.y - A.y)⟩ B := by
  unfold lexLt at *
  rcases h with h | ⟨h, h'⟩
  · exact Or.inl (by dsimp only; nlinarith)
  · refine Or.inr ⟨by dsimp only; rw [h]; ring, ?_⟩
    dsimp only
    nlinarith

theorem diverge_kill (P : List Pt) (MX v a b : Pt) (xrest : List Pt)
    (hMmax : ∀ q ∈ P, lexLe q MX)
    (hlast : (v :: a :: xrest).getLast? = some MX)
    (hpw : List.Pairwise lexLt (v :: a :: xrest))
    (hst : StrictTurns (v :: a :: xrest))
    (hsup : ∀ q ∈ P, EdgesSupport q (v :: a :: xrest))
    (hb : b ∈ P) (hcol : cross v a b = 0) (hab : lexLt a b) : False := by
  have hva : lexLt v a := (List.pairwise_cons.mp hpw).1 a (List.mem_cons_self _ _)
  obtain ⟨s, hsx, hsy⟩ := cross_collinear_param hcol (lexLt_ne hva)
  set t : ℚ := s - 1 with hts
  have hbeq : b = ⟨a.x + t * (a.x - v.x), a.y + t * (a.y - v.y)⟩ := by
    have hx : b.x = a.x + t * (a.x - v.x) := by rw [hts]; linarith
    have hy : b.y = a.y + t * (a.y - v.y) := by rw [hts]; linarith
    cases b
    simp only [Pt.mk.injEq]
    exact ⟨hx, hy⟩
  have htpos : 0 < t := by
    rcases lt_trichotomy t 0 with hlt | heq | hgt
    · have := lexLt_pull hva t hlt
      rw [← hbeq] at this
      exact absurd hab (lexLt_asymm this)
    · rw [heq] at hbeq
      simp only [zero_mul, add_zero] at hbeq
      have : b = a := by rw [hbeq]
      rw [this] at hab
      exact absurd hab (lexLt_irrefl a)
    · exact hgt
  cases xrest with
  | nil =>
    have haM : a = MX := by
      simpa using hlast
    have := hMmax b hb
    rw [← haM] at this
    rcases lexLe_iff.mp this with hEq | hlt
    · rw [hEq] at hab
      exact lexLt_irrefl a hab
    · exact lexLt_asymm hab hlt
  | cons ap rest2 =>
    have hturn : 0 < cross v a ap := hst.1
    have hsupb : 0 ≤ cross a ap b := (hsup b hb).2.1
    have hray : cross a b ap = t * cross v a ap := by
      rw [hbeq]
      exact cross_point_on_ray v a ap t
    rw [cross_swap23] at hsupb
    nlinarith

theorem chain_unique (P : List Pt) (MX : Pt) (hMmax : ∀ q ∈ P, lexLe q MX) :
    ∀ (C : List Pt), ∀ (D : List Pt), C.head? = D.head? →
      C.getLast? = some MX → D.getLast? = some MX →
      List.Pairwise lexLt C → List.Pairwise lexLt D →
      StrictTurns C → StrictTurns D →
      (∀ q ∈ P, EdgesSupport q C) → (∀ q ∈ P, EdgesSupport q D) →
      (∀ x ∈ C, x ∈ P) → (∀ x ∈ D, x ∈ P) →
      C = D := by
  intro C
  induction C with
  | nil =>
    intro D hhead hCl hDl
    simp at hCl
  | cons v C' ih =>
    intro D hhead hCl hDl hCp hDp hCs hDs hCsup hDsup hCm hDm
    cases D with
    | nil => simp at hhead
    | cons v' D' =>
      simp only [List.head?_cons, Option.some.injEq] at hhead
      rw [← hhead] at hDl hDp hDs hDsup hDm ⊢
      cases C' with
      | nil =>
        cases D' with
        | nil => rfl
        | cons b D'' =>
          have hvM : v = MX := by simpa using hCl
          have hMin : MX ∈ b :: D'' := by
            have hsome : (b :: D'').getLast? = some MX := by
              rw [← hDl]
              simp
            obtain ⟨hne', heq⟩ := List.mem_getLast?_eq_getLast (Option.mem_def.mpr hsome)
            rw [heq]
            exact List.getLast_mem _
          have hlt : lexLt v MX :=
            (List.pairwise_cons.mp hDp).1 MX hMin
          rw [hvM] at hlt
          exact absurd hlt (lexLt_irrefl MX)
      | cons a C'' =>
        cases D' with
        | nil =>
          have hvM : v = MX := by simpa using hDl
          have hMin : MX ∈ a :: C'' := by
            have hsome : (a :: C'').getLast? = some MX := by
              rw [← hCl]
              simp
            obtain ⟨hne', heq⟩ := List.mem_getLast?_eq_getLast (Option.mem_def.mpr hsome)
            rw [heq]
            exact List.getLast_mem _
          have hlt : lexLt v MX :=
            (List.pairwise_cons.mp hCp).1 MX hMin
          rw [hvM] at hlt
          exact absurd hlt (lexLt_irrefl MX)
        | cons b D'' =>
          by_cases hab : a = b
          · rw [← hab] at hDl hDp hDs hDsup hDm ⊢
            have htail : a :: C'' = a :: D'' := by
              apply ih (a :: D'')
              · rfl
              · rw [← hCl]
                simp
              · rw [← hDl]
                simp
              · exact (List.pairwise_cons.mp hCp).2
              · exact (List.pairwise_cons.mp hDp).2
              · exact strictTurns_tail hCs
              · exact strictTurns_tail hDs
              · exact fun q hq => edgesSupport_tail (hCsup q hq)
              · exact fun q hq => edgesSupport_tail (hDsup q hq)
              · exact fun x hx => hCm x (List.mem_cons_of_mem _ hx)
              · exact fun x hx => hDm x (List.mem_cons_of_mem _ hx)
            rw [htail]
          · exfalso
            have hbP : b ∈ P := hDm b (List.mem_cons_of_mem _ (List.mem_cons_self _ _))
            have haP : a ∈ P := hCm a (List.mem_cons_of_mem _ (List.mem_cons_self _ _))
            have h1 : 0 ≤ cross v a b := (hCsup b hbP).1
            have h2 : 0 ≤ cross v b a := (hDsup a haP).1
            rw [cross_swap23] at h2
            have hcol : cross v a b = 0 := le_antisymm (by linarith) h1
            rcases lexLt_total a b with hlt | hEq | hlt
            · exact diverge_kill P MX v a b C'' hMmax hCl hCp hCs hCsup hbP hcol hlt
            · exact hab hEq
            · have hcol' : cross v b a = 0 := by
                rw [cross_swap23, hcol]
                ring
              exact diverge_kill P MX v b a D'' hMmax hDl hDp hDs hDsup haP hcol' hlt

theorem pairwise_pair {R : Pt → Pt → Prop} :
    ∀ (xs : List Pt) (a b : Pt) (ys : List Pt),
      List.Pairwise R (xs ++ a :: b :: ys) → R a b
  | [], _a, b, _ys, h => (List.pairwise_cons.mp h).1 b (List.mem_cons_self _ _)
  | _ :: xs, a, b, ys, h =>
    pairwise_pair xs a b ys (List.pairwise_cons.mp h).2

theorem mem_dropLast_decomp {x : Pt} {l : List Pt} (hx : x ∈ l.dropLast) :
    ∃ xs ys, l = xs ++ x :: ys ∧ ys ≠ [] := by
  obtain ⟨s, t, hst⟩ := List.append_of_mem hx
  have hne : l ≠ [] := by
    intro h
    rw [h] at hx
    simp at hx
  have hfull : l = s ++ x :: (t ++ [l.getLast hne]) := by
    conv_lhs => rw [← List.dropLast_append_getLast hne]
    rw [hst]
    simp
  exact ⟨s, t ++ [l.getLast hne], hfull, by simp⟩

theorem exists_snoc1 {l : List Pt} (h : l ≠ []) : ∃ xs a, l = xs ++ [a] :=
  ⟨l.dropLast, l.getLast h, (List.dropLast_append_getLast h).symm⟩

theorem chains_disjoint (pts : List Pt) (hnd : pts.Nodup) (hne : pts ≠ []) :
    ∀ x ∈ (lowerChain pts).dropLast, x ∉ (upperChain pts).dropLast := by
  obtain ⟨l1, l2, l3, l4, l5, l6, l7⟩ := lowerChain_facts pts hnd hne
  obtain ⟨u1, u2, u3, u4, u5, u6, u7⟩ := upperChain_facts pts hnd hne
  intro x hxL hxU
  -- x is in the input set either way
  have hLmem : ∀ y ∈ lowerChain pts, y ∈ sortPts pts := fun y hy => l4.mem hy
  have hUmem : ∀ y ∈ upperChain pts, y ∈ sortPts pts := fun y hy =>
    List.mem_reverse.mp (u4.mem hy)
  have hUnd : (upperChain pts).Nodup := by
    have : List.Pairwise (fun a b : Pt => a ≠ b) (upperChain pts) :=
      u5.imp fun h => (lexLt_ne h).symm
    exact this
  by_cases hxs0 : (sortPts pts).head? = some x
  · -- x is the lex-least point: it is the dropped last vertex of the upper chain
    have hUlast : (upperChain pts).getLast? = some x := by
      rw [u3, hxs0]
    obtain ⟨us, hus⟩ : ∃ us, upperChain pts = us ++ [x] := by
      obtain ⟨us, a, ha⟩ := exists_snoc1 u1
      refine ⟨us, ?_⟩
      rw [ha] at hUlast ⊢
      simp only [List.getLast?_append, List.getLast?_singleton, Option.or_some,
        Option.some.injEq] at hUlast
      rw [hUlast]
    rw [hus] at hxU hUnd
    rw [List.dropLast_concat] at hxU
    rw [List.nodup_append] at hUnd
    exact hUnd.2.2 hxU (List.mem_singleton.mpr rfl)
  · -- x is interior to the lower chain: it has both neighbours there
    obtain ⟨xs, ys, hdec, hysne⟩ := mem_dropLast_decomp hxL
    have hxsne : xs ≠ [] := by
      intro hni
      rw [hni] at hdec
      rw [hdec] at l2
      exact hxs0 l2.symm
    obtain ⟨xs', lm, hlm⟩ := exists_snoc1 hxsne
    obtain ⟨lp, ys', hlp⟩ : ∃ lp ys', ys = lp :: ys' := by
      cases ys with
      | nil => exact absurd rfl hysne
      | cons a r => exact ⟨a, r, rfl⟩
    rw [hlm, hlp] at hdec
    have hdec1 : lowerChain pts = xs' ++ lm :: x :: lp :: ys' := by
      rw [hdec]
      simp
    -- x has a predecessor in the upper chain
    obtain ⟨us, vs, hudec, _⟩ := mem_dropLast_decomp hxU
    have husne : us ≠ [] := by
      intro hni
      rw [hni] at hudec
      rw [hudec] at u2
      have hxM : (sortPts pts).getLast? = some x := u2.symm
      -- then x is both the head of the lower chain tail region and the lex-max: but
      -- x is not the last of the lower chain, contradiction with pairwise order
      have hxlast : (lowerChain pts).getLast? = some x := by
        rw [l3, hxM]
      obtain ⟨ws, hws⟩ : ∃ ws, lowerChain pts = ws ++ [x] := by
        obtain ⟨ws, a, ha⟩ := exists_snoc1 l1
        refine ⟨ws, ?_⟩
        rw [ha] at hxlast ⊢
        simp only [List.getLast?_append, List.getLast?_singleton, Option.or_some,
          Option.some.injEq] at hxlast
        rw [hxlast]
      have hLnd : (lowerChain pts).Nodup := l5.imp fun h => lexLt_ne h
      rw [hws] at hxL hLnd
      rw [List.dropLast_concat] at hxL
      rw [List.nodup_append] at hLnd
      exact hLnd.2.2 hxL (List.mem_singleton.mpr rfl)
    obtain ⟨us', um, hum⟩ := exists_snoc1 husne
    rw [hum] at hudec
    have hudec1 : upperChain pts = us' ++ um :: x :: vs := by
      rw [hudec]
      simp
    -- order and membership facts
    have hlmx : lexLt lm x := pairwise_pair xs' lm x (lp :: ys') (hdec1 ▸ l5)
    have hxum : lexLt x um := pairwise_pair us' um x vs (hudec1 ▸ u5)
    have humS : um ∈ sortPts pts := hUmem um (by
      rw [hudec1]
      exact List.mem_append_right _ (List.mem_cons_self _ _))
    have hlmS : lm ∈ sortPts pts := hLmem lm (by
      rw [hdec1]
      exact List.mem_append_right _ (List.mem_cons_self _ _))
    have hlpS : lp ∈ sortPts pts := hLmem lp (by
      rw [hdec1]
      exact List.mem_append_right _ (by simp))
    -- supports
    have hs1 : 0 ≤ cross lm x um := by
      have := l7 um humS
      rw [hdec1] at this
      exact edgesSupport_pair xs' lm x (lp :: ys') um this
    have hs2 : 0 ≤ cross um x lm := by
      have := u7 lm hlmS
      rw [hudec1] at this
      exact edgesSupport_pair us' um x vs lm this
    have hs3 : 0 ≤ cross um x lp := by
      have := u7 lp hlpS
      rw [hudec1] at this
      exact edgesSupport_pair us' um x vs lp this
    have hturn : 0 < cross lm x lp := by
      have := l6
      rw [hdec1] at this
      exact strictTurns_triple xs' lm x lp ys' this
    -- um lies on the line through lm and x
    have hcol : cross lm x um = 0 := by
      have : cross um x lm = - cross lm x um := by
        rw [cross_cyclic (o := lm) (a := um) (b := x)]
        rw [cross_swap23]
      rw [this] at hs2
      linarith
    obtain ⟨s, hsx, hsy⟩ := cross_collinear_param hcol (lexLt_ne hlmx)
    set t : ℚ := s - 1 with hts
    have humeq : um = ⟨x.x + t * (x.x - lm.x), x.y + t * (x.y - lm.y)⟩ := by
      have hx' : um.x = x.x + t * (x.x - lm.x) := by rw [hts]; linarith
      have hy' : um.y = x.y + t * (x.y - lm.y) := by rw [hts]; linarith
      cases um
      simp only [Pt.mk.injEq]
      exact ⟨hx', hy'⟩
    -- support of lp by the upper edge forces t ≤ 0
    have hray : cross x um lp = t * cross lm x lp := by
      rw [humeq]
      exact cross_point_on_ray lm x lp t
    have htle : t ≤ 0 := by
      rw [cross_swap12] at hs3
      nlinarith
    rcases lt_or_eq_of_le htle with htneg | htzero
    · have := lexLt_pull hlmx t htneg
      rw [← humeq] at this
      exact lexLt_asymm hxum this
    · rw [htzero] at humeq
      simp only [zero_mul, add_zero] at humeq
      have : um = x := by rw [humeq]
      rw [this] at hxum
      exact lexLt_irrefl x hxum

theorem hull_nodup (pts : List Pt) (hnd : pts.Nodup) : (convex_hull pts).Nodup := by
  unfold convex_hull
  split_ifs with h
  · exact hnd
  · have hne : pts ≠ [] := by
      intro hn
      rw [hn] at h
      simp at h
    obtain ⟨l1, l2, l3, l4, l5, l6, l7⟩ := lowerChain_facts pts hnd hne
    obtain ⟨u1, u2, u3, u4, u5, u6, u7⟩ := upperChain_facts pts hnd hne
    have hLnd : (lowerChain pts).Nodup := l5.imp fun hlt => lexLt_ne hlt
    have hUnd : (upperChain pts).Nodup := u5.imp fun hlt => (lexLt_ne hlt).symm
    exact (hLnd.sublist (List.dropLast_sublist _)).append
      (hUnd.sublist (List.dropLast_sublist _))
      (fun a ha hb => chains_disjoint pts hnd hne a ha hb)

theorem sortPts_head_min {X : List Pt} {m : Pt} (hm : m ∈ X)
    (hmin : ∀ x ∈ X, lexLe m x) : (sortPts X).head? = some m := by
  have hm' : m ∈ sortPts X := (sortPts_perm X).mem_iff.mpr hm
  obtain ⟨h0, rest, hS⟩ : ∃ h0 rest, sortPts X = h0 :: rest := by
    cases hS : sortPts X with
    | nil =>
      rw [hS] at hm'
      simp at hm'
    | cons a r => exact ⟨a, r, rfl⟩
  have hsorted := sortPts_sorted X
  rw [hS] at hsorted hm'
  have h1 : lexLe m h0 := hmin h0 ((sortPts_perm X).mem_iff.mp (by rw [hS]; simp))
  have h2 : lexLe h0 m := by
    rcases List.mem_cons.mp hm' with hEq | hmem
    · rw [hEq]
      exact Or.inr ⟨rfl, le_refl _⟩
    · exact (List.pairwise_cons.mp hsorted).1 m hmem
  rw [hS, antisymm h2 h1]
  rfl

theorem sortPts_last_max {X : List Pt} {m : Pt} (hm : m ∈ X)
    (hmax : ∀ x ∈ X, lexLe x m) : (sortPts X).getLast? = some m := by
  have hm' : m ∈ sortPts X := (sortPts_perm X).mem_iff.mpr hm
  have hne : sortPts X ≠ [] := by
    intro hn
    rw [hn] at hm'
    simp at hm'
  obtain ⟨xs, y, hS⟩ := exists_snoc1 hne
  have hsorted := sortPts_sorted X
  have hy : (sortPts X).getLast? = some y := by
    rw [hS]
    simp
  have h1 : lexLe y m := hmax y ((sortPts_perm X).mem_iff.mp (by rw [hS]; simp))
  have h2 : lexLe m y := by
    have hrev : List.Pairwise (fun a b => lexLe b a) (sortPts X).reverse :=
      List.pairwise_reverse.mpr hsorted
    have hySrev : (sortPts X).reverse.head? = some y := by
      rw [List.head?_reverse, hy]
    obtain ⟨rtl, hrtl⟩ : ∃ rtl, (sortPts X).reverse = y :: rtl := by
      cases hR : (sortPts X).reverse with
      | nil =>
        rw [hR] at hySrev
        simp at hySrev
      | cons a r =>
        rw [hR] at hySrev
        simp only [List.head?_cons, Option.some.injEq] at hySrev
        exact ⟨r, by rw [hySrev]⟩
    have hmrev : m ∈ (sortPts X).reverse := List.mem_reverse.mpr hm'
    rw [hrtl] at hmrev hrev
    rcases List.mem_cons.mp hmrev with hEq | hmem
    · rw [hEq]
      exact Or.inr ⟨rfl, le_refl _⟩
    · exact (List.pairwise_cons.mp hrev).1 m hmem
  rw [hy, antisymm h1 h2]

theorem eq_snoc_getLast {l : List Pt} {m : Pt} (h : l.getLast? = some m) :
    ∃ ws, l = ws ++ [m] := by
  have hne : l ≠ [] := by
    intro hn
    rw [hn] at h
    simp at h
  obtain ⟨ws, a, ha⟩ := exists_snoc1 hne
  rw [ha] at h
  simp only [List.getLast?_append, List.getLast?_singleton, Option.or_some,
    Option.some.injEq] at h
  rw [ha, h]
  exact ⟨ws, rfl⟩

theorem mem_dropLast_or_getLast {l : List Pt} {m x : Pt} (h : l.getLast? = some m)
    (hx : x ∈ l) : x ∈ l.dropLast ∨ x = m := by
  obtain ⟨ws, hws⟩ := eq_snoc_getLast h
  rw [hws] at hx ⊢
  rw [List.dropLast_concat]
  rcases List.mem_append.mp hx with hin | hin
  · exact Or.inl hin
  · exact Or.inr (List.mem_singleton.mp hin)

theorem hull_idem (pts : List Pt) (hnd : pts.Nodup) :
    convex_hull (convex_hull pts) = convex_hull pts := by
  by_cases hlen : pts.length < 3
  · have h1 : convex_hull pts = pts := by
      unfold convex_hull
      rw [if_pos hlen]
    rw [h1]
    unfold convex_hull
    rw [if_pos hlen]
  push_neg at hlen
  have hne : pts ≠ [] := by
    intro hn
    rw [hn] at hlen
    simp at hlen
  obtain ⟨l1, l2, l3, l4, l5, l6, l7⟩ := lowerChain_facts pts hnd hne
  obtain ⟨u1, u2, u3, u4, u5, u6, u7⟩ := upperChain_facts pts hnd hne
  have hout : convex_hull pts = (lowerChain pts).dropLast ++ (upperChain pts).dropLast := by
    unfold convex_hull
    rw [if_neg (by omega)]
  by_cases hnc : allCollinear pts
  · -- collinear input: the hull has at most two vertices and is a fixed point
    have hmemL : ∀ y ∈ lowerChain pts, y ∈ pts := fun y hy =>
      (sortPts_perm pts).mem_iff.mp (l4.mem hy)
    have hmemU : ∀ y ∈ upperChain pts, y ∈ pts := fun y hy =>
      (sortPts_perm pts).mem_iff.mp (List.mem_reverse.mp (u4.mem hy))
    have hL2 : (lowerChain pts).length ≤ 2 := by
      rcases hLs : lowerChain pts with _ | ⟨a, _ | ⟨b, _ | ⟨c, r⟩⟩⟩
      · simp
      · simp
      · simp
      · exfalso
        have hst := l6
        rw [hLs] at hst
        have hturn := hst.1
        have hcol := hnc a (hmemL a (by rw [hLs]; simp)) b (hmemL b (by rw [hLs]; simp))
          c (hmemL c (by rw [hLs]; simp))
        linarith
    have hU2 : (upperChain pts).length ≤ 2 := by
      rcases hUs : upperChain pts with _ | ⟨a, _ | ⟨b, _ | ⟨c, r⟩⟩⟩
      · simp
      · simp
      · simp
      · exfalso
        have hst := u6
        rw [hUs] at hst
        have hturn := hst.1
        have hcol := hnc a (hmemU a (by rw [hUs]; simp)) b (hmemU b (by rw [hUs]; simp))
          c (hmemU c (by rw [hUs]; simp))
        linarith
    rw [hout]
    unfold convex_hull
    rw [if_pos]
    simp only [List.length_append, List.length_dropLast]
    omega
  · -- non-degenerate input: both chains of the hull coincide with the original ones
    have honod : (convex_hull pts).Nodup := hull_nodup pts hnd
    have holen : 3 ≤ (convex_hull pts).length := (hull_strict pts hnd hlen hnc).1
    have hone : convex_hull pts ≠ [] := by
      intro hn
      rw [hn] at holen
      simp at holen
    -- identify the extreme points s0 (lex-least) and M (lex-greatest)
    have hSlen : 3 ≤ (sortPts pts).length := by
      rw [(sortPts_perm pts).length_eq]
      exact hlen
    obtain ⟨s0, s1, srest, hS⟩ : ∃ s0 s1 r, sortPts pts = s0 :: s1 :: r := by
      rcases h' : sortPts pts with _ | ⟨a, _ | ⟨b, r⟩⟩
      · rw [h'] at hSlen
        simp at hSlen
      · rw [h'] at hSlen
        simp at hSlen
      · exact ⟨a, b, r, rfl⟩
    have hShead : (sortPts pts).head? = some s0 := by
      rw [hS]
      rfl
    have hmnM : (sortPts pts).head? ≠ (sortPts pts).getLast? := by
      have hpw := sortPts_pairwise pts hnd
      rw [hS] at hpw ⊢
      have hlt : lexLt s0 ((s1 :: srest).getLast (by simp)) :=
        (List.pairwise_cons.mp hpw).1 _ (List.getLast_mem _)
      simp only [List.head?_cons, List.getLast?_cons_cons]
      rw [List.getLast?_eq_getLast _ (by simp)]
      intro hEq
      rw [Option.some.injEq] at hEq
      exact lexLt_ne hlt hEq
    obtain ⟨M, hMlast⟩ : ∃ M, (sortPts pts).getLast? = some M := by
      rw [hS]
      rw [List.getLast?_cons_cons, List.getLast?_eq_getLast _ (by simp)]
      exact ⟨_, rfl⟩
    have hs0M : s0 ≠ M := by
      rw [hShead, hMlast] at hmnM
      intro hEq
      exact hmnM (by rw [hEq])
    -- lower chain of pts: cons and snoc shape
    have hLhead : (lowerChain pts).head? = some s0 := by
      rw [l2, hShead]
    have hLlast : (lowerChain pts).getLast? = some M := by
      rw [l3, hMlast]
    have hUhead : (upperChain pts).head? = some M := by
      rw [u2, hMlast]
    have hUlast : (upperChain pts).getLast? = some s0 := by
      rw [u3, hShead]
    -- membership of hull vertices in the sorted input
    have houtsubS : ∀ y ∈ convex_hull pts, y ∈ sortPts pts := by
      intro y hy
      rw [hout] at hy
      rcases List.mem_append.mp hy with hin | hin
      · exact l4.mem ((List.dropLast_sublist _).mem hin)
      · exact List.mem_reverse.mp (u4.mem ((List.dropLast_sublist _).mem hin))
    -- s0 and M are hull vertices
    have hs0out : s0 ∈ convex_hull pts := by
      obtain ⟨L1, Ltl, hLc⟩ : ∃ a r, lowerChain pts = s0 :: a :: r := by
        rcases hLx : lowerChain pts with _ | ⟨x, _ | ⟨y, r⟩⟩
        · exact absurd hLx l1
        · rw [hLx] at hLhead hLlast
          simp only [List.head?_cons, List.getLast?_singleton, Option.some.injEq]
            at hLhead hLlast
          exact absurd (hLhead.symm.trans hLlast) hs0M
        · rw [hLx] at hLhead
          simp only [List.head?_cons, Option.some.injEq] at hLhead
          exact ⟨y, r, by rw [hLhead]⟩
      rw [hout, hLc]
      simp
    have hMout : M ∈ convex_hull pts := by
      obtain ⟨U1, Utl, hUc⟩ : ∃ a r, upperChain pts = M :: a :: r := by
        rcases hUx : upperChain pts with _ | ⟨x, _ | ⟨y, r⟩⟩
        · exact absurd hUx u1
        · rw [hUx] at hUhead hUlast
          simp only [List.head?_cons, List.getLast?_singleton, Option.some.injEq]
            at hUhead hUlast
          exact absurd (hUlast.symm.trans hUhead) hs0M
        · rw [hUx] at hUhead
          simp only [List.head?_cons, Option.some.injEq] at hUhead
          exact ⟨y, r, by rw [hUhead]⟩
      rw [hout, hUc]
      simp
    -- s0 and M are the lex extremes of the hull vertex set
    have hminout : ∀ y ∈ convex_hull pts, lexLe s0 y := by
      intro y hy
      rcases head_lex_min (sortPts_pairwise pts hnd) hShead y (houtsubS y hy) with hEq | hlt
      · exact lexLe_iff.mpr (Or.inl hEq.symm)
      · exact lexLe_iff.mpr (Or.inr hlt)
    have hmaxout : ∀ y ∈ convex_hull pts, lexLe y M := by
      intro y hy
      rcases getLast_lex_max (sortPts_pairwise pts hnd) hMlast y (houtsubS y hy) with hEq | hlt
      · exact lexLe_iff.mpr (Or.inl hEq)
      · exact lexLe_iff.mpr (Or.inr hlt)
    have hhead_out : (sortPts (convex_hull pts)).head? = some s0 :=
      sortPts_head_min hs0out hminout
    have hlast_out : (sortPts (convex_hull pts)).getLast? = some M :=
      sortPts_last_max hMout hmaxout
    -- the lower chain of the hull equals the lower chain of the input
    obtain ⟨o1, o2, o3, o4, o5, o6, o7⟩ :=
      lowerChain_facts (convex_hull pts) honod hone
    have hLeq : lowerChain (convex_hull pts) = lowerChain pts := by
      apply chain_unique (convex_hull pts) M hmaxout
      · rw [o2, hhead_out, hLhead]
      · rw [o3, hlast_out]
      · exact hLlast
      · exact o5
      · exact l5
      · exact o6
      · exact l6
      · intro q hq
        exact o7 q ((sortPts_perm _).mem_iff.mpr hq)
      · intro q hq
        exact l7 q (houtsubS q hq)
      · intro x hx
        exact (sortPts_perm _).mem_iff.mp (o4.mem hx)
      · intro x hx
        rcases mem_dropLast_or_getLast hLlast hx with hin | hEq
        · rw [hout]
          exact List.mem_append_left _ hin
        · rw [hEq]
          exact hMout
    -- the upper chain of the hull equals the upper chain of the input
    have hnegout : (convex_hull pts).map negPt ≠ [] := by
      simpa [List.map_eq_nil_iff] using hone
    have hnegoutnd : ((convex_hull pts).map negPt).Nodup := honod.map negPt_injective
    obtain ⟨n1, n2, n3, n4, n5, n6, n7⟩ :=
      lowerChain_facts ((convex_hull pts).map negPt) hnegoutnd hnegout
    have hnegptsnd : (pts.map negPt).Nodup := hnd.map negPt_injective
    have hnegptsne : pts.map negPt ≠ [] := by
      simpa [List.map_eq_nil_iff] using hne
    obtain ⟨m1, m2, m3, m4, m5, m6, m7⟩ :=
      lowerChain_facts (pts.map negPt) hnegptsnd hnegptsne
    have hnegS : sortPts (pts.map negPt) = ((sortPts pts).reverse).map negPt :=
      sortPts_map_negPt pts
    have hmhead : (lowerChain (pts.map negPt)).head? = some (negPt M) := by
      rw [m2, hnegS, List.head?_map, List.head?_reverse, hMlast]
      rfl
    have hmlast : (lowerChain (pts.map negPt)).getLast? = some (negPt s0) := by
      rw [m3, hnegS, List.getLast?_map, List.getLast?_reverse, hShead]
      rfl
    have hnhead : (lowerChain ((convex_hull pts).map negPt)).head? = some (negPt M) := by
      rw [n2]
      apply sortPts_head_min (List.mem_map_of_mem _ hMout)
      intro z hz
      obtain ⟨y, hy, rfl⟩ := List.mem_map.mp hz
      exact lexLe_negPt.mpr (hmaxout y hy)
    have hnlast : (lowerChain ((convex_hull pts).map negPt)).getLast? = some (negPt s0) := by
      rw [n3]
      apply sortPts_last_max (List.mem_map_of_mem _ hs0out)
      intro z hz
      obtain ⟨y, hy, rfl⟩ := List.mem_map.mp hz
      exact lexLe_negPt.mpr (hminout y hy)
    have hUrev : lowerChain (pts.map negPt) = (upperChain pts).map negPt := by
      rw [upperChain_eq_neg, map_negPt_negPt]
    have hNeq : lowerChain ((convex_hull pts).map negPt) = lowerChain (pts.map negPt) := by
      apply chain_unique ((convex_hull pts).map negPt) (negPt s0)
      · intro q hq
        obtain ⟨y, hy, rfl⟩ := List.mem_map.mp hq
        exact lexLe_negPt.mpr (hminout y hy)
      · rw [hnhead, hmhead]
      · exact hnlast
      · exact hmlast
      · exact n5
      · exact m5
      · exact n6
      · exact m6
      · intro q hq
        exact n7 q ((sortPts_perm _).mem_iff.mpr hq)
      · intro q hq
        obtain ⟨y, hy, rfl⟩ := List.mem_map.mp hq
        apply m7
        rw [hnegS]
        exact List.mem_map_of_mem _ (List.mem_reverse.mpr (houtsubS y hy))
      · intro x hx
        exact (sortPts_perm _).mem_iff.mp (n4.mem hx)
      · intro x hx
        rw [hUrev] at hx
        obtain ⟨y, hy, rfl⟩ := List.mem_map.mp hx
        apply List.mem_map_of_mem
        rcases mem_dropLast_or_getLast hUlast hy with hin | hEq
        · rw [hout]
          exact List.mem_append_right _ hin
        · rw [hEq]
          exact hs0out
    have hUeq : upperChain (convex_hull pts) = upperChain pts := by
      rw [upperChain_eq_neg, hNeq, hUrev, map_negPt_negPt]
    -- both chains agree, so the hulls agree
    have hull_eq : ∀ X : List Pt, ¬ X.length < 3 →
        convex_hull X = (lowerChain X).dropLast ++ (upperChain X).dropLast := by
      intro X hX
      unfold convex_hull
      rw [if_neg hX]
    have hfinal := hull_eq (convex_hull pts) (by omega)
    rw [hfinal, hLeq, hUeq, ← hout]

/-- C6: the monotone-chain convex hull is idempotent on distinct points:
applying `convex_hull` to its own output returns the very same vertex list
(hence the same vertex set in the same cyclic order). -/
theorem claim6_hull_idempotent (pts : List Pt) (h : pts.Nodup) :
    convex_hull (convex_hull pts) = convex_hull pts :=
  hull_idem pts h

theorem claim6_witness :
    ([⟨0,0⟩, ⟨2,0⟩, ⟨0,2⟩, ⟨1,1⟩] : List Pt).Nodup ∧
    convex_hull (convex_hull [⟨0,0⟩, ⟨2,0⟩, ⟨0,2⟩, ⟨1,1⟩]) =
      convex_hull [⟨0,0⟩, ⟨2,0⟩, ⟨0,2⟩, ⟨1,1⟩] := by
  have hnd : ([⟨0,0⟩, ⟨2,0⟩, ⟨0,2⟩, ⟨1,1⟩] : List Pt).Nodup := by
    norm_num [List.nodup_cons, Pt.mk.injEq]
  exact ⟨hnd, claim6_hull_idempotent _ hnd⟩
